import Mathlib

/-!
Verification of the log-structured key-value store engine (kvs).

The definitions below are a shallow embedding of the Rust sources:
  src/engines/kvs.rs   (KvStore: open, compact, set, get, remove, gen_index,
                        get_log_paths)
  src/engines/sled.rs  (SledKvsEngine: set, get, remove)
  src/bin/kvs-server.rs (engine selection in main / current_engine)

Modelling conventions:
  * File contents are lists of characters; the sources store UTF-8 bytes and
    all reasoning here concerns single-byte characters, so byte offsets and
    character offsets coincide.
  * The serde_json codec is embedded concretely: a Set command serializes to
    the object with shape Set/key/value and a Remove command to the object
    with shape Remove/key, with no separators between records.  String
    escaping covers the quote and backslash characters, which is the fragment
    the engine exercises.
  * HashMap fields of the source (the readers map) are association lists; the
    iteration order of a Rust HashMap is unspecified, which is modelled by
    letting theorems quantify over, or exhibit, particular orders.
  * BufReader seek positions are transient (every read seeks first), so they
    are not part of the state.
  * Fallible operations return Except; a panic of the source (unwrap on a
    missing reader or a failed parse) is the unwrapFail error.
-/

/-- Error kinds of the embedding: KeyNotFoundError, serde_json codec errors,
and panics (unwrap failures) of the source. -/
inductive Err : Type where
  | keyNotFound : Err
  | codec : Err
  | unwrapFail : Err
deriving DecidableEq, Repr

/-- The Command enum of src/engines/kvs.rs. -/
inductive Command : Type where
  | Set : String → String → Command
  | Remove : String → Command
deriving DecidableEq, Repr

/-- The CommandPos struct of src/engines/kvs.rs: file id, byte offset and
byte length of a record. -/
structure CommandPos : Type where
  fid : Nat
  pos : Nat
  len : Nat
deriving DecidableEq, Repr

abbrev Bytes := List Char

/-- JSON string escaping of serde_json for one character, restricted to the
quote and backslash escapes. -/
def escseq (c : Char) : Bytes :=
  if c = '"' ∨ c = '\\' then ['\\', c] else [c]

/-- Body of a JSON string literal: escaped characters followed by the closing
quote. -/
def escBody : Bytes → Bytes
  | [] => ['"']
  | c :: cs => escseq c ++ escBody cs

/-- JSON encoding of a string: opening quote, escaped body, closing quote. -/
def encStr (s : String) : Bytes :=
  '"' :: escBody s.data

/-- Opening bytes of a serialized Set command, up to the key string. -/
def setPre : Bytes := "\x7b\"Set\":\x7b\"key\":".data

/-- Bytes between the key and the value of a serialized Set command. -/
def setMid : Bytes := ",\"value\":".data

/-- Closing bytes of a serialized command. -/
def objSuf : Bytes := "\x7d\x7d".data

/-- Opening bytes of a serialized Remove command, up to the key string. -/
def rmPre : Bytes := "\x7b\"Remove\":\x7b\"key\":".data

/-- serde_json serialization of a command (to_writer). -/
def encCmd : Command → Bytes
  | .Set k v => setPre ++ encStr k ++ setMid ++ encStr v ++ objSuf
  | .Remove k => rmPre ++ encStr k ++ objSuf

/-- Strip an expected literal byte sequence from the front of the input;
none when the input does not start with it. -/
def stripPre : Bytes → Bytes → Option Bytes
  | [], cs => some cs
  | _ :: _, [] => none
  | p :: ps, c :: cs => if c = p then stripPre ps cs else none

/-- Parse the body of a JSON string literal up to and including the closing
quote, undoing the escapes: returns the decoded characters and the rest. -/
def decStrBody : Bytes → Option (Bytes × Bytes)
  | [] => none
  | c :: rest =>
    if c = '"' then some ([], rest)
    else if c = '\\' then
      match rest with
      | [] => none
      | c2 :: rest2 => (decStrBody rest2).map (fun r => (c2 :: r.1, r.2))
    else (decStrBody rest).map (fun r => (c :: r.1, r.2))

/-- Parse a JSON string literal: an opening quote followed by a body. -/
def decStr (cs : Bytes) : Option (String × Bytes) :=
  match cs with
  | [] => none
  | c :: rest =>
    if c = '"' then (decStrBody rest).map (fun r => (String.mk r.1, r.2))
    else none

/-- serde_json parse of a single command from the front of the input:
returns the command and the unconsumed rest. -/
def decCmd (cs : Bytes) : Option (Command × Bytes) :=
  match stripPre setPre cs with
  | some r1 =>
    match decStr r1 with
    | some (k, r2) =>
      match stripPre setMid r2 with
      | some r3 =>
        match decStr r3 with
        | some (v, r4) =>
          match stripPre objSuf r4 with
          | some r5 => some (.Set k v, r5)
          | none => none
        | none => none
      | none => none
    | none => none
  | none =>
    match stripPre rmPre cs with
    | some r1 =>
      match decStr r1 with
      | some (k, r2) =>
        match stripPre objSuf r2 with
        | some r3 => some (.Remove k, r3)
        | none => none
      | none => none
    | none => none

/-- serde_json from_reader on a reader of exactly these bytes: one command
must occupy the whole input, trailing bytes are a codec error (trailing
characters), as is any malformed input. -/
def fromReader (cs : Bytes) : Except Err Command :=
  match decCmd cs with
  | some (c, []) => .ok c
  | some (_, _ :: _) => .error .codec
  | none => .error .codec

/-- Seek to pos and take len bytes of a file (the seek-then-take read of the
source). -/
def sliceAt (f : Bytes) (pos len : Nat) : Bytes :=
  (f.drop pos).take len

/-- Lookup in an association list by key (first match). -/
def alookup {κ : Type} {β : Type} [DecidableEq κ] : List (κ × β) → κ → Option β
  | [], _ => none
  | (k', v') :: rest, k => if k = k' then some v' else alookup rest k

/-- Lexicographic strict order on byte sequences (the Ord instance Rust
uses for String keys in the BTreeMap). -/
def bytesLt : Bytes → Bytes → Bool
  | [], [] => false
  | [], _ :: _ => true
  | _ :: _, [] => false
  | a :: as, b :: bs =>
    if a < b then true
    else if b < a then false
    else bytesLt as bs

/-- Lexicographic strict order on strings. -/
def strLt (a b : String) : Bool :=
  bytesLt a.data b.data

/-- BTreeMap insert modelled on a key-sorted association list: replaces the
binding when the key is present, otherwise inserts at the sorted position. -/
def mapInsert {β : Type} : List (String × β) → String → β → List (String × β)
  | [], k, v => [(k, v)]
  | (k', v') :: rest, k, v =>
    if strLt k k' then (k, v) :: (k', v') :: rest
    else if k = k' then (k, v) :: rest
    else (k', v') :: mapInsert rest k v

/-- BTreeMap lookup on the association list. -/
def mapLookup {β : Type} : List (String × β) → String → Option β
  | [], _ => none
  | (k', v') :: rest, k => if k = k' then some v' else mapLookup rest k

/-- BTreeMap remove on the association list: drops the first binding of the
key (keys are unique in a map). -/
def mapErase {β : Type} : List (String × β) → String → List (String × β)
  | [], _ => []
  | (k', v') :: rest, k => if k = k' then rest else (k', v') :: mapErase rest k

/-- HashMap insert: replaces the binding in place when present, otherwise
adds a new binding (placed at the end; a HashMap carries no order). -/
def hmInsert {β : Type} : List (Nat × β) → Nat → β → List (Nat × β)
  | [], k, v => [(k, v)]
  | (k', v') :: rest, k, v =>
    if k = k' then (k, v) :: rest else (k', v') :: hmInsert rest k v

/-- Append bytes to the file with the given id (the effect of writing through
the active-segment writer and flushing).  The active file always exists, so
the missing-file case leaves the map unchanged. -/
def appendAt : List (Nat × Bytes) → Nat → Bytes → List (Nat × Bytes)
  | [], _, _ => []
  | (f, c) :: rest, fid, bs =>
    if fid = f then (f, c ++ bs) :: rest else (f, c) :: appendAt rest fid bs

/-- stripPre never lengthens the input. -/
theorem stripPre_length_le (p : Bytes) :
    ∀ cs r, stripPre p cs = some r → r.length ≤ cs.length := by
  induction p with
  | nil =>
    intro cs r h
    simp only [stripPre, Option.some.injEq] at h
    subst h
    exact Nat.le_refl _
  | cons a ps ih =>
    intro cs r h
    cases cs with
    | nil => simp [stripPre] at h
    | cons c cs0 =>
      simp only [stripPre] at h
      split at h
      · have := ih cs0 r h
        simp only [List.length_cons]
        omega
      · exact absurd h (by simp)


/-- Length-bounded auxiliary form of the decStrBody length bound. -/
theorem decStrBody_length_lt_aux :
    ∀ n (cs : Bytes), cs.length ≤ n →
      ∀ b r, decStrBody cs = some (b, r) → r.length < cs.length := by
  intro n
  induction n with
  | zero =>
    intro cs hle b r h
    cases cs with
    | nil => simp [decStrBody] at h
    | cons c cs0 => exact absurd hle (by simp)
  | succ n ih =>
    intro cs hle b r h
    cases cs with
    | nil => simp [decStrBody] at h
    | cons c cs0 =>
      unfold decStrBody at h
      by_cases hq : c = '"'
      · rw [if_pos hq] at h
        simp only [Option.some.injEq, Prod.mk.injEq] at h
        obtain ⟨_, hr⟩ := h
        subst hr
        simp
      · rw [if_neg hq] at h
        by_cases hb : c = '\\'
        · rw [if_pos hb] at h
          cases cs0 with
          | nil => exact Option.noConfusion h
          | cons c2 cs1 =>
            have h' : Option.map (fun r => (c2 :: r.1, r.2)) (decStrBody cs1)
                = some (b, r) := h
            cases hdec : decStrBody cs1 with
            | none => rw [hdec] at h'; exact absurd h' (by simp)
            | some pr =>
              rw [hdec] at h'
              simp only [Option.map_some'] at h'
              injection h' with h2
              have hr : r = pr.2 := (congrArg Prod.snd h2).symm
              rw [hr]
              have hlt := ih cs1 (by simp at hle ⊢; omega) pr.1 pr.2 hdec
              simp only [List.length_cons]
              omega
        · rw [if_neg hb] at h
          cases hdec : decStrBody cs0 with
          | none => rw [hdec] at h; exact absurd h (by simp)
          | some pr =>
            rw [hdec] at h
            simp only [Option.map_some'] at h
            injection h with h2
            have hr : r = pr.2 := (congrArg Prod.snd h2).symm
            rw [hr]
            have hlt := ih cs0 (by simp at hle ⊢; omega) pr.1 pr.2 hdec
            simp only [List.length_cons]
            omega

/-- A successful decStrBody consumes at least the closing quote. -/
theorem decStrBody_length_lt (cs : Bytes) (b r : Bytes)
    (h : decStrBody cs = some (b, r)) : r.length < cs.length :=
  decStrBody_length_lt_aux cs.length cs (Nat.le_refl _) b r h

/-- A successful decStr strictly shrinks the input. -/
theorem decStr_length_lt (cs : Bytes) (s : String) (r : Bytes)
    (h : decStr cs = some (s, r)) : r.length < cs.length := by
  cases cs with
  | nil => simp [decStr] at h
  | cons c cs0 =>
    by_cases hq : c = '"'
    · subst hq
      simp only [decStr, if_pos rfl] at h
      cases hdec : decStrBody cs0 with
      | none => rw [hdec] at h; simp at h
      | some pr =>
        rw [hdec] at h
        simp only [Option.map_some'] at h
        injection h with h2
        have hr : r = pr.2 := (congrArg Prod.snd h2).symm
        rw [hr]
        have := decStrBody_length_lt cs0 pr.1 pr.2 hdec
        simp only [List.length_cons]
        omega
    · simp only [decStr, if_neg hq] at h
      exact absurd h (by simp)

/-- A successful decCmd strictly shrinks the input. -/
theorem decCmd_length_lt (cs : Bytes) (c : Command) (r : Bytes)
    (h : decCmd cs = some (c, r)) : r.length < cs.length := by
  unfold decCmd at h
  split at h
  · next r1 h1 =>
    split at h
    · next k r2 h2 =>
      split at h
      · next r3 h3 =>
        split at h
        · next v r4 h4 =>
          split at h
          · next r5 h5 =>
            simp only [Option.some.injEq, Prod.mk.injEq] at h
            obtain ⟨_, hr⟩ := h
            subst hr
            have e1 := stripPre_length_le setPre cs r1 h1
            have e2 := decStr_length_lt r1 k r2 h2
            have e3 := stripPre_length_le setMid r2 r3 h3
            have e4 := decStr_length_lt r3 v r4 h4
            have e5 := stripPre_length_le objSuf r4 r5 h5
            omega
          · exact absurd h (by simp)
        · exact absurd h (by simp)
      · exact absurd h (by simp)
    · exact absurd h (by simp)
  · split at h
    · next r1 h1 =>
      split at h
      · next k r2 h2 =>
        split at h
        · next r3 h3 =>
          simp only [Option.some.injEq, Prod.mk.injEq] at h
          obtain ⟨_, hr⟩ := h
          subst hr
          have e1 := stripPre_length_le rmPre cs r1 h1
          have e2 := decStr_length_lt r1 k r2 h2
          have e3 := stripPre_length_le objSuf r2 r3 h3
          omega
        · exact absurd h (by simp)
      · exact absurd h (by simp)
    · exact absurd h (by simp)

/-- gen_index body for one decoded record (src/engines/kvs.rs lines 298-319):
a Set inserts the location and charges a superseded binding to the stale
counter; a Remove erases the binding and charges it. -/
def applyRecord (fid off len : Nat) (cmd : Command)
    (index : List (String × CommandPos)) (size : Nat) :
    List (String × CommandPos) × Nat :=
  match cmd with
  | .Set key _ =>
    match mapLookup index key with
    | some old => (mapInsert index key ⟨fid, off, len⟩, size + old.len)
    | none => (mapInsert index key ⟨fid, off, len⟩, size)
  | .Remove key =>
    match mapLookup index key with
    | some old => (mapErase index key, size + old.len)
    | none => (mapErase index key, size)

/-- Fuel-indexed streaming replay of one segment file (the serde_json
StreamDeserializer loop of gen_index): decode records back to back,
tracking the byte offset before and after each record; a malformed record
is a codec error.  Each decoded record consumes at least one byte, so fuel
equal to the input length always suffices and the zero-fuel case on a
nonempty input is unreachable. -/
def replayFuel (fid : Nat) : Nat → Bytes → Nat →
    List (String × CommandPos) → Nat →
    Except Err (List (String × CommandPos) × Nat)
  | _, [], _, index, size => .ok (index, size)
  | 0, _ :: _, _, _, _ => .error .codec
  | fuel + 1, c0 :: cs0, off, index, size =>
    match decCmd (c0 :: cs0) with
    | none => .error .codec
    | some (cmd, rest) =>
      let consumed := cs0.length + 1 - rest.length
      let r := applyRecord fid off consumed cmd index size
      replayFuel fid fuel rest (off + consumed) r.1 r.2

/-- Streaming replay of one whole segment file. -/
def replaySeg (fid : Nat) (cs : Bytes) (off : Nat)
    (index : List (String × CommandPos)) (size : Nat) :
    Except Err (List (String × CommandPos) × Nat) :=
  replayFuel fid cs.length cs off index size

/-- gen_index of src/engines/kvs.rs: replay every segment in the order the
readers HashMap yields them (that iteration order is unspecified; it is the
order of this list). -/
def gen_index : List (Nat × Bytes) → List (String × CommandPos) → Nat →
    Except Err (List (String × CommandPos) × Nat)
  | [], index, size => .ok (index, size)
  | (fid, content) :: rest, index, size =>
    match replaySeg fid content 0 index size with
    | .error e => .error e
    | .ok r => gen_index rest r.1 r.2

/-- The KvStore struct of src/engines/kvs.rs.  The readers field maps each
segment id to the contents of its file (the directory and the reader set
coincide); the path and the write buffer need no state of their own. -/
structure KvStore : Type where
  readers : List (Nat × Bytes)
  index : List (String × CommandPos)
  current_pointer : Nat
  compaction_size : Nat
  current_fid : Nat
deriving DecidableEq, Repr

/-- Compaction threshold of src/engines/kvs.rs. -/
def COMPACTION_THRESHOLD : Nat := 1024 * 1024

/-- KvStore::open on the parsed directory listing (segment ids with file
contents, in the arbitrary order the readers HashMap yields them): pick the
largest id as active, create segment 0 when the directory is empty, replay
everything through gen_index, and read the active file length as the write
pointer. -/
def KvStore.openStore (segs : List (Nat × Bytes)) : Except Err KvStore :=
  let current_fid := segs.foldl (fun m e => max m e.1) 0
  let readers := if segs.isEmpty then [(0, ([] : Bytes))] else segs
  match gen_index readers [] 0 with
  | .error e => .error e
  | .ok r =>
    let ptr := ((alookup readers current_fid).getD []).length
    .ok ⟨readers, r.1, ptr, r.2, current_fid⟩

/-- The copy loop of KvStore::compact (lines 114-137): for each index entry
read its record, append the re-serialized record to the current fresh
segment, and open another fresh segment once more than 1 MiB has been
copied into the current one.  The missing-reader unwrap and the serde_json
read propagate as errors. -/
def copyLoop : List (String × CommandPos) → List (Nat × Bytes) → Nat → Nat →
    Except Err (List (Nat × Bytes) × Nat × Nat)
  | [], readers, fid, log_size => .ok (readers, fid, log_size)
  | (_, p) :: rest, readers, fid, log_size =>
    match alookup readers p.fid with
    | none => .error .unwrapFail
    | some file =>
      match fromReader (sliceAt file p.pos p.len) with
      | .error e => .error e
      | .ok cmd =>
        let readers1 := appendAt readers fid (encCmd cmd)
        let log1 := log_size + p.len
        if log1 > 1024 * 1024 then
          copyLoop rest (hmInsert readers1 (fid + 1) []) (fid + 1) 0
        else
          copyLoop rest readers1 fid log1

/-- KvStore::compact: allocate a fresh segment after the old maximum id M,
copy the live records, delete every segment with id at most M, and rebuild
the index and the stale counter by replaying the surviving segments. -/
def KvStore.compact (s : KvStore) : Except Err KvStore :=
  let old_max_fid := s.current_fid
  let readers0 := hmInsert s.readers (old_max_fid + 1) []
  match copyLoop s.index readers0 (old_max_fid + 1) 0 with
  | .error e => .error e
  | .ok (readers1, fidF, logF) =>
    let readers2 := readers1.filter (fun e => decide (old_max_fid < e.1))
    match gen_index readers2 [] 0 with
    | .error e => .error e
    | .ok r => .ok ⟨readers2, r.1, logF, r.2, fidF⟩

/-- First phase of KvStore::set (lines 168-189): append the serialized Set
record, read the new file length, index the record at the old write pointer
with the length difference, and charge a superseded binding to the stale
counter.  Returns the state as it is just before the compaction check,
together with new_offset. -/
def midSet (s : KvStore) (key value : String) : KvStore × Nat :=
  let enc := encCmd (.Set key value)
  let readers1 := appendAt s.readers s.current_fid enc
  let new_offset := ((alookup readers1 s.current_fid).getD []).length
  let new_len := new_offset - s.current_pointer
  let old := mapLookup s.index key
  let index1 := mapInsert s.index key ⟨s.current_fid, s.current_pointer, new_len⟩
  let size1 :=
    match old with
    | some p => s.compaction_size + p.len
    | none => s.compaction_size
  (⟨readers1, index1, s.current_pointer, size1, s.current_fid⟩, new_offset)

/-- Tail of KvStore::set (lines 194-212): store new_offset as the write
pointer (even when compaction has just rebuilt the state), and rotate to a
fresh active segment when the pointer exceeds 1 MiB. -/
def finishSet (s : KvStore) (new_offset : Nat) : KvStore :=
  let s3 : KvStore := { s with current_pointer := new_offset }
  if new_offset > 1024 * 1024 then
    { s3 with
        current_fid := s3.current_fid + 1,
        readers := hmInsert s3.readers (s3.current_fid + 1) [],
        current_pointer := 0 }
  else s3

/-- KvStore::set: first phase, then compaction when the stale counter
exceeds the threshold, then the pointer update and rotation check. -/
def KvStore.set (s : KvStore) (key value : String) : Except Err KvStore :=
  let m := midSet s key value
  match
    (if m.1.compaction_size > COMPACTION_THRESHOLD
     then KvStore.compact m.1
     else .ok m.1) with
  | .error e => .error e
  | .ok s2 => .ok (finishSet s2 m.2)

/-- KvStore::get (lines 220-232): look up the index, seek and read the
located bytes, decode one record; a Set yields its value, any other decoded
record yields none.  The state is returned unchanged alongside the result
(the source takes mutable self but writes no field). -/
def KvStore.get (s : KvStore) (key : String) :
    Except Err (Option String) × KvStore :=
  match mapLookup s.index key with
  | none => (.ok none, s)
  | some p =>
    match alookup s.readers p.fid with
    | none => (.error .unwrapFail, s)
    | some file =>
      match fromReader (sliceAt file p.pos p.len) with
      | .error e => (.error e, s)
      | .ok (.Set _ v) => (.ok (some v), s)
      | .ok (.Remove _) => (.ok none, s)

/-- KvStore::remove (lines 237-249): an absent key is KeyNotFoundError with
no write; otherwise append a Remove record, erase the binding, and charge
the superseded record length to the stale counter.  The write pointer is
not updated. -/
def KvStore.remove (s : KvStore) (key : String) : Except Err Unit × KvStore :=
  match mapLookup s.index key with
  | none => (.error .keyNotFound, s)
  | some p =>
    let readers1 := appendAt s.readers s.current_fid (encCmd (.Remove key))
    let index1 := mapErase s.index key
    (.ok (), ⟨readers1, index1, s.current_pointer,
              s.compaction_size + p.len, s.current_fid⟩)

/-- The sled-backed engine state: the tree is a map from keys to values
(values are stored as bytes; the keys and values here are the strings the
engine interface exchanges). -/
structure SledDb : Type where
  tree : List (String × String)
deriving DecidableEq, Repr

/-- SledKvsEngine::set: tree set plus flush. -/
def SledKvsEngine.set (db : SledDb) (key value : String) :
    Except Err Unit × SledDb :=
  (.ok (), ⟨mapInsert db.tree key value⟩)

/-- SledKvsEngine::get: tree get; the stored bytes of a value written by set
are valid UTF-8, so the conversion simply returns the string. -/
def SledKvsEngine.get (db : SledDb) (key : String) :
    Except Err (Option String) × SledDb :=
  (.ok (mapLookup db.tree key), db)

/-- SledKvsEngine::remove: tree del returns the old value, absent is
KeyNotFoundError (del of an absent key changes nothing). -/
def SledKvsEngine.remove (db : SledDb) (key : String) :
    Except Err Unit × SledDb :=
  match mapLookup db.tree key with
  | none => (.error .keyNotFound, db)
  | some _ => (.ok (), ⟨mapErase db.tree key⟩)

/-- Engine names of src/bin/kvs-server.rs. -/
inductive Engine : Type where
  | kvs : Engine
  | sled : Engine
deriving DecidableEq, Repr

/-- Engine selection of kvs-server main (lines 46-55) on the requested
engine and the stored engine-file content: none means the server refuses to
start (exit 1); some e means it runs engine e (run defaults to kvs). -/
def serverSelect (requested stored : Option Engine) : Option Engine :=
  let req := match requested with
    | none => stored
    | some e => some e
  if stored.isSome ∧ req ≠ stored then none
  else some (req.getD .kvs)

/-- Rust u64 parsing of a file stem restricted to plain digits (the formats
the engine itself writes). -/
def parseFid (stem : Bytes) : Option Nat :=
  if stem ≠ [] ∧ stem.all (fun c => c.isDigit) then
    some (stem.foldl (fun n c => n * 10 + (c.toNat - '0'.toNat)) 0)
  else none

/-- Split a file name into stem and extension the way Path does: the
extension is what follows the last dot, and a name without a dot, or with
only a leading dot, has no extension. -/
def splitExtName (name : Bytes) : Option (Bytes × Bytes) :=
  let revName := name.reverse
  let extRev := revName.takeWhile (fun c => c ≠ '.')
  if extRev.length = revName.length then none
  else
    let stem := name.take (name.length - extRev.length - 1)
    if stem = [] then none
    else some (stem, extRev.reverse)

/-- get_log_paths of src/engines/kvs.rs on a directory listing of file
names: files with extension log have their stem parsed with
parse::<u64>().unwrap(); a stem that does not parse panics (unwrapFail).
Other files are skipped. -/
def get_log_paths : List Bytes → Except Err (List (Nat × Bytes))
  | [] => .ok []
  | name :: rest =>
    match splitExtName name with
    | some (stem, ext) =>
      if ext = "log".data then
        match parseFid stem with
        | some fid =>
          match get_log_paths rest with
          | .error e => .error e
          | .ok r => .ok ((fid, name) :: r)
        | none => .error .unwrapFail
      else get_log_paths rest
    | none => get_log_paths rest

/-- bytesLt is irreflexive. -/
theorem bytesLt_irrefl (a : Bytes) : bytesLt a a = false := by
  induction a with
  | nil => rfl
  | cons c cs ih => simp [bytesLt, lt_irrefl, ih]

/-- bytesLt is transitive. -/
theorem bytesLt_trans : ∀ a b c : Bytes,
    bytesLt a b = true → bytesLt b c = true → bytesLt a c = true := by
  intro a
  induction a with
  | nil =>
    intro b c h1 h2
    cases b with
    | nil => simp [bytesLt] at h1
    | cons y ys =>
      cases c with
      | nil => simp [bytesLt] at h2
      | cons z zs => rfl
  | cons x xs ih =>
    intro b c h1 h2
    cases b with
    | nil => simp [bytesLt] at h1
    | cons y ys =>
      cases c with
      | nil => simp [bytesLt] at h2
      | cons z zs =>
        simp only [bytesLt] at h1 h2 ⊢
        by_cases hxy : x < y
        · by_cases hyz : y < z
          · simp [lt_trans hxy hyz]
          · by_cases hzy : z < y
            · simp [hyz, hzy] at h2
            · have hyzeq : y = z := le_antisymm (not_lt.mp hzy) (not_lt.mp hyz)
              subst hyzeq
              simp [hxy]
        · by_cases hyx : y < x
          · simp [hxy, hyx] at h1
          · have hxyeq : x = y := le_antisymm (not_lt.mp hyx) (not_lt.mp hxy)
            subst hxyeq
            simp only [hxy, if_neg, lt_irrefl, if_false] at h1 ⊢
            by_cases hyz : x < z
            · simp [hyz]
            · by_cases hzy : z < x
              · simp [hyz, hzy] at h2
              · have hyzeq : x = z := le_antisymm (not_lt.mp hzy) (not_lt.mp hyz)
                subst hyzeq
                simp only [lt_irrefl, if_false] at h1 h2 ⊢
                exact ih ys zs h1 h2

/-- bytesLt is total on distinct sequences. -/
theorem bytesLt_total : ∀ a b : Bytes,
    bytesLt a b = false → a ≠ b → bytesLt b a = true := by
  intro a
  induction a with
  | nil =>
    intro b h1 hne
    cases b with
    | nil => exact absurd rfl hne
    | cons y ys => simp [bytesLt] at h1
  | cons x xs ih =>
    intro b h1 hne
    cases b with
    | nil => rfl
    | cons y ys =>
      simp only [bytesLt] at h1 ⊢
      by_cases hxy : x < y
      · simp [hxy] at h1
      · by_cases hyx : y < x
        · simp [hyx]
        · have hxyeq : x = y := le_antisymm (not_lt.mp hyx) (not_lt.mp hxy)
          subst hxyeq
          simp only [lt_irrefl, if_false] at h1 ⊢
          refine ih ys h1 ?_
          intro he
          exact hne (by rw [he])

/-- bytesLt rules out equality. -/
theorem ne_of_bytesLt (a b : Bytes) (h : bytesLt a b = true) : a ≠ b := by
  intro he
  subst he
  rw [bytesLt_irrefl] at h
  exact Bool.noConfusion h

/-- strLt is irreflexive. -/
theorem strLt_irrefl (a : String) : strLt a a = false :=
  bytesLt_irrefl a.data

/-- strLt is transitive. -/
theorem strLt_trans (a b c : String) (h1 : strLt a b = true)
    (h2 : strLt b c = true) : strLt a c = true :=
  bytesLt_trans a.data b.data c.data h1 h2

/-- strLt is total on distinct strings. -/
theorem strLt_total (a b : String) (h1 : strLt a b = false) (hne : a ≠ b) :
    strLt b a = true := by
  refine bytesLt_total a.data b.data h1 ?_
  intro he
  apply hne
  cases a
  cases b
  simp_all

/-- strLt rules out equality. -/
theorem ne_of_strLt (a b : String) (h : strLt a b = true) : a ≠ b := by
  intro he
  subst he
  rw [strLt_irrefl] at h
  exact Bool.noConfusion h

/-- Looking up the inserted key finds the inserted value. -/
theorem mapLookup_insert_self {β : Type} (m : List (String × β)) (k : String)
    (v : β) : mapLookup (mapInsert m k v) k = some v := by
  induction m with
  | nil => simp [mapInsert, mapLookup]
  | cons e rest ih =>
    obtain ⟨k', v'⟩ := e
    by_cases h1 : strLt k k' = true
    · simp [mapInsert, h1, mapLookup]
    · by_cases h2 : k = k'
      · simp [mapInsert, h1, h2, mapLookup, strLt_irrefl]
      · simp [mapInsert, h1, h2, mapLookup, ih]

/-- Inserting one key does not change the lookup of another. -/
theorem mapLookup_insert_ne {β : Type} (m : List (String × β)) (k k' : String)
    (v : β) (h : k' ≠ k) :
    mapLookup (mapInsert m k v) k' = mapLookup m k' := by
  induction m with
  | nil => simp [mapInsert, mapLookup, h]
  | cons e rest ih =>
    obtain ⟨k0, v0⟩ := e
    by_cases h1 : strLt k k0 = true
    · simp [mapInsert, h1, mapLookup, h]
    · by_cases h2 : k = k0
      · subst h2
        simp [mapInsert, h1, mapLookup, h, strLt_irrefl]
      · by_cases h3 : k' = k0
        · simp [mapInsert, h1, h2, mapLookup, h3]
        · simp [mapInsert, h1, h2, mapLookup, h3, ih]

/-- Erasing one key does not change the lookup of another. -/
theorem mapLookup_erase_ne {β : Type} (m : List (String × β)) (k k' : String)
    (h : k' ≠ k) : mapLookup (mapErase m k) k' = mapLookup m k' := by
  induction m with
  | nil => simp [mapErase]
  | cons e rest ih =>
    obtain ⟨k0, v0⟩ := e
    by_cases h1 : k = k0
    · subst h1
      simp [mapErase, mapLookup, h]
    · by_cases h2 : k' = k0
      · simp [mapErase, h1, mapLookup, h2]
      · simp [mapErase, h1, mapLookup, h2, ih]

/-- A key outside the key list of a map looks up to none. -/
theorem mapLookup_eq_none_of_not_mem {β : Type} (m : List (String × β))
    (k : String) (h : k ∉ m.map Prod.fst) : mapLookup m k = none := by
  induction m with
  | nil => simp [mapLookup]
  | cons e rest ih =>
    obtain ⟨k0, v0⟩ := e
    simp only [List.map_cons, List.mem_cons] at h
    push_neg at h
    simp [mapLookup, h.1, ih h.2]

/-- In a map with unique keys, erasing a key removes its binding. -/
theorem mapLookup_erase_self {β : Type} (m : List (String × β)) (k : String)
    (hnd : (m.map Prod.fst).Nodup) : mapLookup (mapErase m k) k = none := by
  induction m with
  | nil => simp [mapErase, mapLookup]
  | cons e rest ih =>
    obtain ⟨k0, v0⟩ := e
    simp only [List.map_cons, List.nodup_cons] at hnd
    by_cases h1 : k = k0
    · subst h1
      simp only [mapErase, if_pos rfl]
      exact mapLookup_eq_none_of_not_mem rest k hnd.1
    · simp [mapErase, h1, mapLookup, ih hnd.2]

/-- A successful lookup is a member of the association list. -/
theorem mem_of_mapLookup_eq_some {β : Type} (m : List (String × β))
    (k : String) (v : β) (h : mapLookup m k = some v) : (k, v) ∈ m := by
  induction m with
  | nil => simp [mapLookup] at h
  | cons e rest ih =>
    obtain ⟨k0, v0⟩ := e
    by_cases h1 : k = k0
    · subst h1
      have hv : v0 = v := by
        have hs : some v0 = some v := by
          rw [show mapLookup ((k, v0) :: rest) k = some v0 from by
            simp [mapLookup]] at h
          exact congrArg some rfl ▸ h ▸ rfl
        injection hs
      subst hv
      exact List.mem_cons_self _ _
    · rw [show mapLookup ((k0, v0) :: rest) k = mapLookup rest k from by
        simp [mapLookup, h1]] at h
      exact List.mem_cons_of_mem _ (ih h)

/-- In a map with unique keys, membership determines the lookup. -/
theorem mapLookup_eq_some_of_mem {β : Type} (m : List (String × β))
    (k : String) (v : β) (hnd : (m.map Prod.fst).Nodup) (h : (k, v) ∈ m) :
    mapLookup m k = some v := by
  induction m with
  | nil => simp at h
  | cons e rest ih =>
    obtain ⟨k0, v0⟩ := e
    simp only [List.map_cons, List.nodup_cons] at hnd
    rcases List.mem_cons.mp h with hm | hm
    · have h1 : k = k0 := congrArg Prod.fst hm
      have h2 : v = v0 := congrArg Prod.snd hm
      subst h1
      subst h2
      simp [mapLookup]
    · have hne : k ≠ k0 := by
        intro he
        subst he
        exact hnd.1 (List.mem_map.mpr ⟨(k, v), hm, rfl⟩)
      simp [mapLookup, hne, ih hnd.2 hm]

/-- Keys of an insert come from the inserted key and the old keys. -/
theorem mem_keys_mapInsert {β : Type} (m : List (String × β)) (k k' : String)
    (v : β) (h : k' ∈ (mapInsert m k v).map Prod.fst) :
    k' = k ∨ k' ∈ m.map Prod.fst := by
  induction m with
  | nil => simpa [mapInsert] using h
  | cons e rest ih =>
    obtain ⟨k0, v0⟩ := e
    by_cases h1 : strLt k k0 = true
    · simp only [mapInsert, if_pos h1, List.map_cons, List.mem_cons] at h
      rcases h with h | h | h
      · exact .inl h
      · exact .inr (by simp [h])
      · exact .inr (by simp [h])
    · by_cases h2 : k = k0
      · simp only [mapInsert, if_neg h1, if_pos h2, List.map_cons,
          List.mem_cons] at h
        rcases h with h | h
        · exact .inl h
        · exact .inr (by simp [h])
      · simp only [mapInsert, if_neg h1, if_neg h2, List.map_cons,
          List.mem_cons] at h
        rcases h with h | h
        · exact .inr (by simp [h])
        · rcases ih h with h | h
          · exact .inl h
          · exact .inr (by simp [h])


/-- Keys of a BTreeMap association list are strictly ascending. -/
def SortedKeys {β : Type} (m : List (String × β)) : Prop :=
  List.Pairwise (fun a b => strLt a.1 b.1 = true) m

/-- The sorted insert keeps keys strictly ascending. -/
theorem sortedKeys_mapInsert {β : Type} (m : List (String × β)) (k : String)
    (v : β) (hs : SortedKeys m) : SortedKeys (mapInsert m k v) := by
  induction m with
  | nil => simp [mapInsert, SortedKeys]
  | cons e rest ih =>
    obtain ⟨k0, v0⟩ := e
    rw [SortedKeys, List.pairwise_cons] at hs
    by_cases h1 : strLt k k0 = true
    · rw [SortedKeys, show mapInsert ((k0, v0) :: rest) k v
          = (k, v) :: (k0, v0) :: rest from by simp [mapInsert, h1]]
      rw [List.pairwise_cons]
      refine ⟨?_, List.pairwise_cons.mpr hs⟩
      intro b hb
      rcases List.mem_cons.mp hb with hb | hb
      · rw [hb]
        exact h1
      · exact strLt_trans _ _ _ h1 (hs.1 b hb)
    · by_cases h2 : k = k0
      · subst h2
        rw [SortedKeys, show mapInsert ((k, v0) :: rest) k v
            = (k, v) :: rest from by simp [mapInsert, h1]]
        rw [List.pairwise_cons]
        exact ⟨hs.1, hs.2⟩
      · rw [SortedKeys, show mapInsert ((k0, v0) :: rest) k v
            = (k0, v0) :: mapInsert rest k v from by simp [mapInsert, h1, h2]]
        rw [List.pairwise_cons]
        have h1f : strLt k k0 = false := by
          revert h1
          cases strLt k k0 <;> simp
        have hk0 : strLt k0 k = true := strLt_total k k0 h1f h2
        refine ⟨?_, ih hs.2⟩
        intro b hb
        rcases mem_keys_mapInsert rest k b.1 v
            (List.mem_map.mpr ⟨b, hb, rfl⟩) with h | h
        · rw [h]
          exact hk0
        · obtain ⟨b0, hb0, hfst⟩ := List.mem_map.mp h
          exact hfst ▸ hs.1 b0 hb0

/-- Erasing is a sublist. -/
theorem mapErase_sublist {β : Type} (m : List (String × β)) (k : String) :
    (mapErase m k).Sublist m := by
  induction m with
  | nil => simp [mapErase]
  | cons e rest ih =>
    obtain ⟨k0, v0⟩ := e
    by_cases h1 : k = k0
    · rw [show mapErase ((k0, v0) :: rest) k = rest from by simp [mapErase, h1]]
      exact List.sublist_cons_self _ _
    · rw [show mapErase ((k0, v0) :: rest) k = (k0, v0) :: mapErase rest k
          from by simp [mapErase, h1]]
      exact List.Sublist.cons₂ _ ih

/-- Erasing keeps keys strictly ascending. -/
theorem sortedKeys_mapErase {β : Type} (m : List (String × β)) (k : String)
    (hs : SortedKeys m) : SortedKeys (mapErase m k) :=
  List.Pairwise.sublist (mapErase_sublist m k) hs

/-- Strictly ascending keys are unique. -/
theorem nodup_keys_of_sortedKeys {β : Type} (m : List (String × β))
    (hs : SortedKeys m) : (m.map Prod.fst).Nodup := by
  rw [List.Nodup, List.pairwise_map]
  exact hs.imp (fun h => ne_of_strLt _ _ h)

/-- State produced by opening an empty directory. -/
def trace0 : KvStore := ⟨[(0, [])], [], 0, 0, 0⟩

/-- State after set a 1 on the fresh store. -/
def trace1 : KvStore :=
  ⟨[(0, encCmd (.Set "a" "1"))], [("a", ⟨0, 0, 31⟩)], 31, 0, 0⟩

/-- State after remove a: the Remove record was appended but the write
pointer stays at 31 while the file is 53 bytes long. -/
def trace2 : KvStore :=
  ⟨[(0, encCmd (.Set "a" "1") ++ encCmd (.Remove "a"))], [], 31, 31, 0⟩

/-- State after set b 2: the index entry for b starts at byte 31 (the
Remove record) and spans 53 bytes (the Remove record plus the Set record). -/
def trace3 : KvStore :=
  ⟨[(0, encCmd (.Set "a" "1") ++ encCmd (.Remove "a") ++ encCmd (.Set "b" "2"))],
   [("b", ⟨0, 31, 53⟩)], 84, 31, 0⟩

/-- C1: the claim says replay visits segments in strictly ascending id order
so that the latest Set record wins.  gen_index iterates the readers HashMap,
whose iteration order is unspecified: replay is order sensitive, and with the
two segments visited in descending order the index maps the key to the stale
record of segment 0 carrying value old instead of the latest record of
segment 1 carrying value new. -/
theorem c1_replay_is_order_sensitive :
    gen_index [(0, encCmd (.Set "k" "old")), (1, encCmd (.Set "k" "new"))] [] 0
      = .ok ([("k", ⟨1, 0, 33⟩)], 33)
    ∧ gen_index [(1, encCmd (.Set "k" "new")), (0, encCmd (.Set "k" "old"))] [] 0
      = .ok ([("k", ⟨0, 0, 33⟩)], 33)
    ∧ fromReader (sliceAt (encCmd (.Set "k" "old")) 0 33) = .ok (.Set "k" "old") :=
  ⟨rfl, rfl, rfl⟩

/-- C2: the claim says every operation preserves the invariant that each
index entry locates a valid Set record for its key.  After open, set a 1,
remove a, set b 2, the entry for b locates 53 bytes beginning at the Remove
record, which do not decode as a single Set record (remove leaves the write
pointer stale, so the next set indexes the wrong span). -/
theorem c2_invariant_violated_by_remove_set :
    KvStore.openStore [] = .ok trace0
    ∧ KvStore.set trace0 "a" "1" = .ok trace1
    ∧ KvStore.remove trace1 "a" = (.ok (), trace2)
    ∧ KvStore.set trace2 "b" "2" = .ok trace3
    ∧ mapLookup trace3.index "b" = some ⟨0, 31, 53⟩
    ∧ fromReader (sliceAt ((alookup trace3.readers 0).getD []) 31 53)
      = .error .codec :=
  ⟨rfl, rfl, rfl, rfl, rfl, rfl⟩

/-- C3: the claim says a get after a completed set of the same key returns
the value just written, for any sequence of successful operations, including
removes of other keys.  After open, set a 1, remove a, set b 2, the read of
key b fails with a codec error instead of returning value 2. -/
theorem c3_read_your_writes_fails_after_remove :
    KvStore.openStore [] = .ok trace0
    ∧ KvStore.set trace0 "a" "1" = .ok trace1
    ∧ KvStore.remove trace1 "a" = (.ok (), trace2)
    ∧ KvStore.set trace2 "b" "2" = .ok trace3
    ∧ (KvStore.get trace3 "b").1 = .error .codec :=
  ⟨rfl, rfl, rfl, rfl, rfl⟩

/-- C4: remove of an absent key returns KeyNotFoundError and changes
nothing, in both engines; after a successful remove, get returns none and a
second remove returns KeyNotFoundError, in both engines. -/
theorem c4_remove_semantics :
    (∀ (s : KvStore) (k : String), mapLookup s.index k = none →
      KvStore.remove s k = (.error .keyNotFound, s))
    ∧ (∀ (s : KvStore) (k : String), (s.index.map Prod.fst).Nodup →
        ∀ u s', KvStore.remove s k = (.ok u, s') →
          (KvStore.get s' k).1 = .ok none
          ∧ KvStore.remove s' k = (.error .keyNotFound, s'))
    ∧ (∀ (d : SledDb) (k : String), mapLookup d.tree k = none →
      SledKvsEngine.remove d k = (.error .keyNotFound, d))
    ∧ (∀ (d : SledDb) (k : String), (d.tree.map Prod.fst).Nodup →
        ∀ u d', SledKvsEngine.remove d k = (.ok u, d') →
          (SledKvsEngine.get d' k).1 = .ok none
          ∧ SledKvsEngine.remove d' k = (.error .keyNotFound, d')) := by
  refine ⟨?_, ?_, ?_, ?_⟩
  · intro s k h
    simp [KvStore.remove, h]
  · intro s k hnd u s' h
    cases hl : mapLookup s.index k with
    | none => simp [KvStore.remove, hl] at h
    | some p =>
      simp only [KvStore.remove, hl] at h
      have hs' : s' = ⟨appendAt s.readers s.current_fid (encCmd (.Remove k)),
          mapErase s.index k, s.current_pointer,
          s.compaction_size + p.len, s.current_fid⟩ :=
        (congrArg Prod.snd h).symm
      have hidx : mapLookup s'.index k = none := by
        rw [hs']
        exact mapLookup_erase_self s.index k hnd
      constructor
      · simp [KvStore.get, hidx]
      · simp [KvStore.remove, hidx]
  · intro d k h
    simp [SledKvsEngine.remove, h]
  · intro d k hnd u d' h
    cases hl : mapLookup d.tree k with
    | none => simp [SledKvsEngine.remove, hl] at h
    | some v =>
      simp only [SledKvsEngine.remove, hl] at h
      have hd' : d' = ⟨mapErase d.tree k⟩ := (congrArg Prod.snd h).symm
      have hidx : mapLookup d'.tree k = none := by
        rw [hd']
        exact mapLookup_erase_self d.tree k hnd
      constructor
      · simp [SledKvsEngine.get, hidx]
      · simp [SledKvsEngine.remove, hidx]

/-- C4 witness: the four parts of the remove contract evaluated on concrete
stores. -/
theorem c4_remove_semantics_witness :
    KvStore.remove trace0 "a" = (.error .keyNotFound, trace0)
    ∧ (KvStore.get trace2 "a").1 = .ok none
    ∧ KvStore.remove trace2 "a" = (.error .keyNotFound, trace2)
    ∧ SledKvsEngine.remove ⟨[]⟩ "a" = (.error .keyNotFound, ⟨[]⟩)
    ∧ (SledKvsEngine.get ⟨[]⟩ "a").1 = .ok none
    ∧ SledKvsEngine.remove ⟨[("a", "1")]⟩ "a" = (.ok (), ⟨[]⟩) := by
  have h1 := c4_remove_semantics.1 trace0 "a" rfl
  have h2 := c4_remove_semantics.2.1 trace1 "a" (by simp [trace1]) () trace2 rfl
  have h3 := c4_remove_semantics.2.2.1 (⟨[]⟩ : SledDb) "a" rfl
  have h4 := c4_remove_semantics.2.2.2 (⟨[("a", "1")]⟩ : SledDb) "a"
    (by simp) () ⟨[]⟩ rfl
  exact ⟨h1, h2.1, h2.2, h3, h4.1, rfl⟩

/-- The state demonstrating C5: the single index entry for key a locates a
Remove record. -/
def c5state : KvStore :=
  ⟨[(0, encCmd (.Remove "a"))], [("a", ⟨0, 0, 22⟩)], 22, 0, 0⟩

/-- C5 counterexample: the claim says a decoded Remove at a live index entry
is a consistency-violation error, but get returns Ok none there (the source
falls through to Ok(None) for any non-Set record). -/
theorem c5_counterexample :
    mapLookup c5state.index "a" = some ⟨0, 0, 22⟩
    ∧ fromReader (sliceAt ((alookup c5state.readers 0).getD []) 0 22)
      = .ok (.Remove "a")
    ∧ (KvStore.get c5state "a").1 = .ok none :=
  ⟨rfl, rfl, rfl⟩

/-- C5 amended: when the bytes located by a live index entry decode to a
Remove record, get returns Ok none (as for an absent key) rather than an
error. -/
theorem c5_amended_get_remove_is_none (s : KvStore) (k k2 : String)
    (p : CommandPos) (file : Bytes)
    (h1 : mapLookup s.index k = some p)
    (h2 : alookup s.readers p.fid = some file)
    (h3 : fromReader (sliceAt file p.pos p.len) = .ok (.Remove k2)) :
    (KvStore.get s k).1 = .ok none := by
  simp [KvStore.get, h1, h2, h3]

/-- C5 witness for the amended claim, on the concrete state. -/
theorem c5_amended_witness :
    mapLookup c5state.index "a" = some ⟨0, 0, 22⟩
    ∧ alookup c5state.readers 0 = some (encCmd (.Remove "a"))
    ∧ fromReader (sliceAt (encCmd (.Remove "a")) 0 22) = .ok (.Remove "a")
    ∧ (KvStore.get c5state "a").1 = .ok none :=
  ⟨rfl, rfl, rfl,
    c5_amended_get_remove_is_none c5state "a" "a" ⟨0, 0, 22⟩
      (encCmd (.Remove "a")) rfl rfl rfl⟩

/-- Concrete store for C7: one live key a whose Set record is 31 bytes. -/
def c7state : KvStore :=
  ⟨[(0, encCmd (.Set "a" "1"))], [("a", ⟨0, 0, 31⟩)], 31, 0, 0⟩

/-- C7 counterexample: the claim says a successful remove increases
stale_bytes by the superseded record length plus the length of the appended
Remove record (31 + 22 = 53 here); the code adds only the superseded length,
so the counter goes from 0 to 31, not to 53. -/
theorem c7_counterexample :
    KvStore.remove c7state "a"
      = (.ok (), ⟨[(0, encCmd (.Set "a" "1") ++ encCmd (.Remove "a"))],
                  [], 31, 31, 0⟩)
    ∧ c7state.compaction_size = 0
    ∧ mapLookup c7state.index "a" = some ⟨0, 0, 31⟩
    ∧ (encCmd (.Remove "a")).length = 22
    ∧ (KvStore.remove c7state "a").2.compaction_size ≠ 0 + 31 + 22 :=
  ⟨rfl, rfl, rfl, rfl, by decide⟩

/-- C7 amended: a successful remove increases stale_bytes by exactly the
length of the superseded Set record; the appended Remove record itself is
not counted. -/
theorem c7_amended_stale_accounting (s : KvStore) (k : String)
    (p : CommandPos) (h : mapLookup s.index k = some p) :
    (KvStore.remove s k).1 = .ok ()
    ∧ (KvStore.remove s k).2.compaction_size = s.compaction_size + p.len := by
  simp [KvStore.remove, h]

/-- C7 witness for the amended claim. -/
theorem c7_amended_witness :
    mapLookup c7state.index "a" = some ⟨0, 0, 31⟩
    ∧ (KvStore.remove c7state "a").2.compaction_size
      = c7state.compaction_size + 31 :=
  ⟨rfl, (c7_amended_stale_accounting c7state "a" ⟨0, 0, 31⟩ rfl).2⟩

/-- C8: the claim says a log file whose stem is not a non-negative decimal
integer is skipped; get_log_paths parses the stem with unwrap, so such a
file makes open panic (modelled as the unwrapFail error), while a numeric
one is collected. -/
theorem c8_nonnumeric_stem_panics :
    get_log_paths ["abc.log".data] = .error .unwrapFail
    ∧ get_log_paths ["7.log".data, "engine".data] = .ok [(7, "7.log".data)] :=
  ⟨rfl, rfl⟩

/-- C9: engine selection of the server: a requested engine that differs
from the stored one refuses to start; no requested engine falls back to the
stored one; neither falls back to kvs. -/
theorem c9_engine_selection :
    (∀ r st : Engine, r ≠ st → serverSelect (some r) (some st) = none)
    ∧ (∀ st : Engine, serverSelect none (some st) = some st)
    ∧ serverSelect none none = some .kvs := by
  refine ⟨?_, ?_, rfl⟩
  · intro r st h
    simp [serverSelect, h]
  · intro st
    simp [serverSelect]

/-- C9 witness: concrete selections. -/
theorem c9_engine_selection_witness :
    Engine.sled ≠ Engine.kvs
    ∧ serverSelect (some .sled) (some .kvs) = none
    ∧ serverSelect none (some .sled) = some .sled
    ∧ serverSelect none none = some .kvs :=
  ⟨by decide, c9_engine_selection.1 .sled .kvs (by decide),
   c9_engine_selection.2.1 .sled, c9_engine_selection.2.2⟩

/-- C10: get is observably read-only: it returns the state it was given,
so the readers (segment files), the index, the write pointer, the stale
counter and the active segment id are all unchanged, for present and absent
keys and for every outcome. -/
theorem c10_get_is_read_only (s : KvStore) (k : String) :
    (KvStore.get s k).2 = s
    ∧ (KvStore.get s k).2.readers = s.readers
    ∧ (KvStore.get s k).2.index = s.index
    ∧ (KvStore.get s k).2.current_pointer = s.current_pointer
    ∧ (KvStore.get s k).2.compaction_size = s.compaction_size
    ∧ (KvStore.get s k).2.current_fid = s.current_fid := by
  have h : (KvStore.get s k).2 = s := by
    unfold KvStore.get
    repeat' split
    all_goals rfl
  exact ⟨h, by rw [h], by rw [h], by rw [h], by rw [h], by rw [h]⟩

/-- Dropping past a left append lands in the right part. -/
theorem drop_append_ge {α : Type} : ∀ (a b : List α) (n : Nat),
    a.length ≤ n → (a ++ b).drop n = b.drop (n - a.length) := by
  intro a
  induction a with
  | nil => intro b n _; simp
  | cons x xs ih =>
    intro b n hle
    cases n with
    | zero => simp at hle
    | succ m =>
      simp only [List.cons_append, List.drop_succ_cons, List.length_cons,
        Nat.succ_sub_succ]
      exact ih b m (by simpa using hle)

/-- Taking within the left part of an append stays in it. -/
theorem take_append_le {α : Type} : ∀ (a b : List α) (n : Nat),
    n ≤ a.length → (a ++ b).take n = a.take n := by
  intro a
  induction a with
  | nil =>
    intro b n hle
    simp at hle
    simp [hle]
  | cons x xs ih =>
    intro b n hle
    cases n with
    | zero => simp
    | succ m =>
      simp only [List.cons_append, List.take_succ_cons]
      rw [ih b m (by simpa using hle)]

/-- A read entirely inside the original file ignores appended bytes. -/
theorem sliceAt_append_left (f g : Bytes) (pos len : Nat)
    (h : pos + len ≤ f.length) :
    sliceAt (f ++ g) pos len = sliceAt f pos len := by
  unfold sliceAt
  rw [List.drop_append_of_le_length (by omega)]
  rw [take_append_le _ _ _ (by simp [Nat.le_sub_iff_add_le]; omega)]

/-- Reading the just-appended record returns exactly its bytes. -/
theorem sliceAt_append_exact (f g : Bytes) :
    sliceAt (f ++ g) f.length g.length = g := by
  unfold sliceAt
  rw [drop_append_ge f g f.length (Nat.le_refl _)]
  simp

/-- The length of a read inside the file is the requested length. -/
theorem sliceAt_length (f : Bytes) (pos len : Nat)
    (h : pos + len ≤ f.length) : (sliceAt f pos len).length = len := by
  unfold sliceAt
  rw [List.length_take, List.length_drop]
  omega

/-- alookup ignores a right extension when the key is found on the left. -/
theorem alookup_append_left {κ β : Type} [DecidableEq κ]
    (a b : List (κ × β)) (k : κ) (v : β) (h : alookup a k = some v) :
    alookup (a ++ b) k = some v := by
  induction a with
  | nil => simp [alookup] at h
  | cons e rest ih =>
    obtain ⟨k0, v0⟩ := e
    by_cases h1 : k = k0
    · simp only [alookup, if_pos h1] at h ⊢
      exact h
    · simp only [alookup, if_neg h1] at h ⊢
      exact ih h

/-- alookup of an absent key on the left continues on the right. -/
theorem alookup_append_right {κ β : Type} [DecidableEq κ]
    (a b : List (κ × β)) (k : κ) (h : alookup a k = none) :
    alookup (a ++ b) k = alookup b k := by
  induction a with
  | nil => simp
  | cons e rest ih =>
    obtain ⟨k0, v0⟩ := e
    by_cases h1 : k = k0
    · simp only [alookup, if_pos h1] at h
      exact absurd h (by simp)
    · simp only [alookup, if_neg h1] at h ⊢
      exact ih h

/-- A key that is not in the key list of an association list is absent. -/
theorem alookup_eq_none_of_not_mem {κ β : Type} [DecidableEq κ]
    (a : List (κ × β)) (k : κ) (h : k ∉ a.map Prod.fst) :
    alookup a k = none := by
  induction a with
  | nil => simp [alookup]
  | cons e rest ih =>
    obtain ⟨k0, v0⟩ := e
    simp only [List.map_cons, List.mem_cons] at h
    push_neg at h
    simp [alookup, h.1, ih h.2]

/-- With unique keys, a member binding is what alookup returns. -/
theorem alookup_eq_some_of_mem_nodup {κ β : Type} [DecidableEq κ]
    (a : List (κ × β)) (k : κ) (v : β) (hnd : (a.map Prod.fst).Nodup)
    (h : (k, v) ∈ a) : alookup a k = some v := by
  induction a with
  | nil => simp at h
  | cons e rest ih =>
    obtain ⟨k0, v0⟩ := e
    simp only [List.map_cons, List.nodup_cons] at hnd
    rcases List.mem_cons.mp h with hm | hm
    · have h1 : k = k0 := congrArg Prod.fst hm
      have h2 : v = v0 := congrArg Prod.snd hm
      subst h1
      subst h2
      simp [alookup]
    · have hne : k ≠ k0 := by
        intro he
        subst he
        exact hnd.1 (List.mem_map.mpr ⟨(k, v), hm, rfl⟩)
      simp [alookup, hne, ih hnd.2 hm]

/-- appendAt keeps the set and order of file ids. -/
theorem appendAt_map_fst (rs : List (Nat × Bytes)) (fid : Nat) (bs : Bytes) :
    (appendAt rs fid bs).map Prod.fst = rs.map Prod.fst := by
  induction rs with
  | nil => rfl
  | cons e rest ih =>
    obtain ⟨f, c⟩ := e
    by_cases h1 : fid = f
    · simp [appendAt, h1]
    · simp [appendAt, h1, ih]

/-- Appending to the found file extends its contents. -/
theorem alookup_appendAt_self (rs : List (Nat × Bytes)) (fid : Nat)
    (bs f0 : Bytes) (h : alookup rs fid = some f0) :
    alookup (appendAt rs fid bs) fid = some (f0 ++ bs) := by
  induction rs with
  | nil => simp [alookup] at h
  | cons e rest ih =>
    obtain ⟨f, c⟩ := e
    by_cases h1 : fid = f
    · subst h1
      have hc : c = f0 := by
        have hh : some c = some f0 := by
          rw [show alookup ((fid, c) :: rest) fid = some c from by
            simp [alookup]] at h
          exact h
        injection hh
      subst hc
      simp [appendAt, alookup]
    · simp only [alookup, if_neg h1] at h
      simp [appendAt, h1, alookup, ih h]

/-- Appending to one file leaves the others untouched. -/
theorem alookup_appendAt_ne (rs : List (Nat × Bytes)) (fid f : Nat)
    (bs : Bytes) (h : f ≠ fid) :
    alookup (appendAt rs fid bs) f = alookup rs f := by
  induction rs with
  | nil => simp [appendAt]
  | cons e rest ih =>
    obtain ⟨f0, c0⟩ := e
    by_cases h1 : fid = f0
    · subst h1
      simp [appendAt, alookup, h, ih]
    · by_cases h2 : f = f0
      · simp [appendAt, h1, alookup, h2]
      · simp [appendAt, h1, alookup, h2, ih]

/-- appendAt on a map whose left part misses the id acts on the right part. -/
theorem appendAt_append_right (a b : List (Nat × Bytes)) (fid : Nat)
    (bs : Bytes) (h : fid ∉ a.map Prod.fst) :
    appendAt (a ++ b) fid bs = a ++ appendAt b fid bs := by
  induction a with
  | nil => simp
  | cons e rest ih =>
    obtain ⟨f, c⟩ := e
    simp only [List.map_cons, List.mem_cons] at h
    push_neg at h
    simp [appendAt, h.1, ih h.2]

/-- Inserting an id absent from the map appends the binding at the end. -/
theorem hmInsert_fresh {β : Type} (rs : List (Nat × β)) (fid : Nat) (v : β)
    (h : fid ∉ rs.map Prod.fst) : hmInsert rs fid v = rs ++ [(fid, v)] := by
  induction rs with
  | nil => rfl
  | cons e rest ih =>
    obtain ⟨f, c⟩ := e
    simp only [List.map_cons, List.mem_cons] at h
    push_neg at h
    simp [hmInsert, h.1, ih h.2]

/-- Lookup after inserting a distinct id is unchanged. -/
theorem alookup_hmInsert_ne {β : Type} (rs : List (Nat × β)) (fid f : Nat)
    (v : β) (h : f ≠ fid) : alookup (hmInsert rs fid v) f = alookup rs f := by
  induction rs with
  | nil => simp [hmInsert, alookup, h]
  | cons e rest ih =>
    obtain ⟨f0, c0⟩ := e
    by_cases h1 : fid = f0
    · subst h1
      simp [hmInsert, alookup, h]
    · by_cases h2 : f = f0
      · simp [hmInsert, h1, alookup, h2]
      · simp [hmInsert, h1, alookup, h2, ih]

/-- Stripping a literal from itself plus a rest yields the rest. -/
theorem stripPre_append (p r : Bytes) : stripPre p (p ++ r) = some r := by
  induction p with
  | nil => rfl
  | cons c ps ih => simp [stripPre, ih]

/-- Equation: the body decoder on a closing quote. -/
theorem decStrBody_quote (r : Bytes) : decStrBody ('"' :: r) = some ([], r) := by
  rw [decStrBody.eq_def]
  simp

/-- Equation: the body decoder on an escape sequence. -/
theorem decStrBody_esc (c : Char) (r : Bytes) :
    decStrBody ('\\' :: c :: r)
      = (decStrBody r).map (fun x => (c :: x.1, x.2)) := by
  rw [decStrBody.eq_def]
  simp

/-- Equation: the body decoder on an ordinary character. -/
theorem decStrBody_plain (c : Char) (r : Bytes) (h1 : c ≠ '"')
    (h2 : c ≠ '\\') :
    decStrBody (c :: r) = (decStrBody r).map (fun x => (c :: x.1, x.2)) := by
  rw [decStrBody.eq_def]
  simp [h1, h2]

/-- Decoding the escaped body of a string plus a rest returns the string
characters and the rest. -/
theorem decStrBody_escBody (s : Bytes) :
    ∀ r, decStrBody (escBody s ++ r) = some (s, r) := by
  induction s with
  | nil =>
    intro r
    show decStrBody ('"' :: r) = some ([], r)
    exact decStrBody_quote r
  | cons c cs ih =>
    intro r
    show decStrBody ((escseq c ++ escBody cs) ++ r) = some (c :: cs, r)
    by_cases h : c = '"' ∨ c = '\\'
    · have hesc : escseq c = ['\\', c] := by simp [escseq, h]
      rw [hesc]
      rw [show (['\\', c] ++ escBody cs) ++ r
          = '\\' :: c :: (escBody cs ++ r) from by simp]
      rw [decStrBody_esc, ih r]
      rfl
    · push_neg at h
      have hesc : escseq c = [c] := by simp [escseq, h.1, h.2]
      rw [hesc]
      rw [show ([c] ++ escBody cs) ++ r = c :: (escBody cs ++ r) from by simp]
      rw [decStrBody_plain c _ h.1 h.2, ih r]
      rfl

/-- Decoding an encoded string plus a rest returns the string and the rest. -/
theorem decStr_encStr (s : String) (r : Bytes) :
    decStr (encStr s ++ r) = some (s, r) := by
  show decStr ('"' :: (escBody s.data ++ r)) = some (s, r)
  rw [show decStr ('"' :: (escBody s.data ++ r))
      = (decStrBody (escBody s.data ++ r)).map (fun r => (String.mk r.1, r.2))
      from by simp [decStr]]
  rw [decStrBody_escBody s.data r]
  cases s
  rfl

/-- The Set prefix never matches an encoded Remove command. -/
theorem stripPre_setPre_rmPre (x : Bytes) :
    stripPre setPre (rmPre ++ x) = none := rfl

/-- Decoding an encoded command plus a rest returns the command and the
rest: the codec round-trips on record boundaries. -/
theorem decCmd_encCmd (c : Command) (r : Bytes) :
    decCmd (encCmd c ++ r) = some (c, r) := by
  cases c with
  | Set k v =>
    show decCmd ((setPre ++ encStr k ++ setMid ++ encStr v ++ objSuf) ++ r)
      = some (.Set k v, r)
    have hassoc :
        (setPre ++ encStr k ++ setMid ++ encStr v ++ objSuf) ++ r
        = setPre ++ (encStr k ++ (setMid ++ (encStr v ++ (objSuf ++ r)))) := by
      simp [List.append_assoc]
    rw [hassoc]
    unfold decCmd
    simp only [stripPre_append, decStr_encStr]
  | Remove k =>
    show decCmd ((rmPre ++ encStr k ++ objSuf) ++ r) = some (.Remove k, r)
    have hassoc : (rmPre ++ encStr k ++ objSuf) ++ r
        = rmPre ++ (encStr k ++ (objSuf ++ r)) := by
      simp [List.append_assoc]
    rw [hassoc]
    unfold decCmd
    simp only [stripPre_setPre_rmPre, stripPre_append, decStr_encStr]

/-- from_reader of exactly one encoded command succeeds. -/
theorem fromReader_encCmd (c : Command) : fromReader (encCmd c) = .ok c := by
  have h := decCmd_encCmd c []
  rw [List.append_nil] at h
  simp [fromReader, h]

/-- An encoded command is never empty. -/
theorem encCmd_ne_nil (c : Command) : encCmd c ≠ [] := by
  cases c <;> simp [encCmd, setPre, rmPre]

/-- A segment that is a gapless concatenation of encoded Set records,
together with each record key, value and starting offset (offsets are
absolute: the first record starts at n). -/
inductive SetChain : Nat → Bytes → List (String × String × Nat) → Prop where
  | nil (n : Nat) : SetChain n [] []
  | cons (n : Nat) (k v : String) (rest : Bytes)
      (tl : List (String × String × Nat)) :
      SetChain (n + (encCmd (.Set k v)).length) rest tl →
      SetChain n (encCmd (.Set k v) ++ rest) ((k, v, n) :: tl)

/-- Concatenating two chained segments chains them end to end. -/
theorem setChain_append {n : Nat} {a : Bytes} {l1 : List (String × String × Nat)}
    (h1 : SetChain n a l1) :
    ∀ {b : Bytes} {l2 : List (String × String × Nat)},
      SetChain (n + a.length) b l2 → SetChain n (a ++ b) (l1 ++ l2) := by
  induction h1 with
  | nil m =>
    intro b l2 h2
    simpa using h2
  | cons m k v rest tl hrest ih =>
    intro b l2 h2
    rw [List.append_assoc, List.cons_append]
    refine SetChain.cons m k v (rest ++ b) (tl ++ l2) ?_
    refine ih ?_
    have harith : m + (encCmd (.Set k v) ++ rest).length
        = m + (encCmd (.Set k v)).length + rest.length := by
      simp [List.length_append]
      omega
    rw [harith] at h2
    exact h2

/-- A single encoded Set record is a chain of one element. -/
theorem setChain_single (n : Nat) (k v : String) :
    SetChain n (encCmd (.Set k v)) [(k, v, n)] := by
  have h := SetChain.cons n k v [] [] (SetChain.nil _)
  simpa using h

/-- Every record of a chained segment can be read back exactly from the
segment contents at its recorded offset. -/
theorem setChain_slice {n : Nat} {content : Bytes}
    {l : List (String × String × Nat)} (h : SetChain n content l) :
    ∀ x ∈ l, n ≤ x.2.2
      ∧ (x.2.2 - n) + (encCmd (.Set x.1 x.2.1)).length ≤ content.length
      ∧ sliceAt content (x.2.2 - n) (encCmd (.Set x.1 x.2.1)).length
        = encCmd (.Set x.1 x.2.1) := by
  induction h with
  | nil m => intro x hx; simp at hx
  | cons m k v rest tl hrest ih =>
    intro x hx
    rcases List.mem_cons.mp hx with hx | hx
    · subst hx
      refine ⟨Nat.le_refl _, ?_, ?_⟩
      · simp [List.length_append]
      · simp only [Nat.sub_self]
        unfold sliceAt
        rw [List.drop_zero, take_append_le _ _ _ (Nat.le_refl _),
          List.take_length]
    · obtain ⟨hle, hbound, hslice⟩ := ih x hx
      have hoff : m ≤ x.2.2 := by
        have : m + (encCmd (.Set k v)).length ≤ x.2.2 := hle
        omega
      refine ⟨hoff, ?_, ?_⟩
      · simp only [List.length_append]
        omega
      · have harith : x.2.2 - m
            = (encCmd (.Set k v)).length + (x.2.2 - (m + (encCmd (.Set k v)).length)) := by
          omega
        rw [harith]
        unfold sliceAt
        rw [drop_append_ge _ _ _ (by omega)]
        have harith2 : (encCmd (.Set k v)).length
              + (x.2.2 - (m + (encCmd (.Set k v)).length))
              - (encCmd (.Set k v)).length
            = x.2.2 - (m + (encCmd (.Set k v)).length) := by omega
        rw [harith2]
        exact hslice

/-- The gen_index body applied to a list of Set records (the fold the
replay loop performs on a chained segment). -/
def applySets (fid : Nat) : List (String × String × Nat) →
    List (String × CommandPos) → Nat → List (String × CommandPos) × Nat
  | [], idx, size => (idx, size)
  | x :: tl, idx, size =>
    let r := applyRecord fid x.2.2 (encCmd (.Set x.1 x.2.1)).length
      (.Set x.1 x.2.1) idx size
    applySets fid tl r.1 r.2

/-- replayFuel on an empty segment succeeds immediately. -/
theorem replayFuel_nil (fid fuel off size : Nat)
    (idx : List (String × CommandPos)) :
    replayFuel fid fuel [] off idx size = .ok (idx, size) := by
  cases fuel <;> rfl

/-- One step of replayFuel on input starting with a decodable record. -/
theorem replayFuel_cons (fid f off size : Nat)
    (idx : List (String × CommandPos)) (cs rest : Bytes) (cmd : Command)
    (hne : cs ≠ []) (hdec : decCmd cs = some (cmd, rest)) :
    replayFuel fid (f + 1) cs off idx size
      = replayFuel fid f rest (off + (cs.length - rest.length))
          (applyRecord fid off (cs.length - rest.length) cmd idx size).1
          (applyRecord fid off (cs.length - rest.length) cmd idx size).2 := by
  cases cs with
  | nil => exact absurd rfl hne
  | cons c0 cs0 =>
    rw [replayFuel.eq_def]
    simp only [hdec, List.length_cons]

/-- Replay of a chained all-Set segment is the applySets fold. -/
theorem replayFuel_setChain (fid : Nat) {n : Nat} {content : Bytes}
    {l : List (String × String × Nat)} (h : SetChain n content l) :
    ∀ fuel (idx : List (String × CommandPos)) size,
      content.length ≤ fuel →
      replayFuel fid fuel content n idx size = .ok (applySets fid l idx size) := by
  induction h with
  | nil m =>
    intro fuel idx size _
    rw [replayFuel_nil]
    rfl
  | cons m k v rest tl hrest ih =>
    intro fuel idx size hfuel
    have hlenpos : 0 < (encCmd (.Set k v)).length :=
      List.length_pos.mpr (encCmd_ne_nil _)
    have hlen : (encCmd (.Set k v) ++ rest).length
        = (encCmd (.Set k v)).length + rest.length := List.length_append _ _
    cases fuel with
    | zero =>
      rw [hlen] at hfuel
      omega
    | succ f =>
      have hne : encCmd (.Set k v) ++ rest ≠ [] := by
        intro he
        exact encCmd_ne_nil (.Set k v) (List.append_eq_nil.mp he).1
      rw [replayFuel_cons fid f m size idx _ rest (.Set k v) hne
        (decCmd_encCmd (.Set k v) rest)]
      have hcons : (encCmd (.Set k v) ++ rest).length - rest.length
          = (encCmd (.Set k v)).length := by
        rw [hlen]
        omega
      rw [hcons]
      have hrest_le : rest.length ≤ f := by
        have hf2 : (encCmd (.Set k v)).length + rest.length ≤ f + 1 := by
          rw [← hlen]
          exact hfuel
        omega
      rw [ih f _ _ hrest_le]
      rfl

/-- Replay of a chained all-Set segment from offset zero. -/
theorem replaySeg_setChain (fid : Nat) {content : Bytes}
    {l : List (String × String × Nat)} (h : SetChain 0 content l)
    (idx : List (String × CommandPos)) (size : Nat) :
    replaySeg fid content 0 idx size = .ok (applySets fid l idx size) :=
  replayFuel_setChain fid h content.length idx size (Nat.le_refl _)

/-- The key-value pairs described by the chains of a segment list. -/
def kvsOfCss (css : List (List (String × String × Nat))) :
    List (String × String) :=
  css.foldr (fun cs acc => cs.map (fun x => (x.1, x.2.1)) ++ acc) []

/-- applySets on records with fresh distinct keys: the stale counter does
not move, every record key is indexed at its record location, and other
keys are untouched. -/
theorem applySets_spec (fid : Nat) :
    ∀ (l : List (String × String × Nat)) idx size,
      (∀ x ∈ l, mapLookup idx x.1 = none) →
      (l.map (fun x => x.1)).Nodup →
      (applySets fid l idx size).2 = size
      ∧ (∀ x ∈ l, mapLookup (applySets fid l idx size).1 x.1
          = some ⟨fid, x.2.2, (encCmd (.Set x.1 x.2.1)).length⟩)
      ∧ (∀ k, k ∉ l.map (fun x => x.1) →
          mapLookup (applySets fid l idx size).1 k = mapLookup idx k) := by
  intro l
  induction l with
  | nil =>
    intro idx size _ _
    exact ⟨rfl, by simp, fun k _ => rfl⟩
  | cons x tl ih =>
    intro idx size hfresh hnd
    simp only [List.map_cons, List.nodup_cons] at hnd
    have hx : mapLookup idx x.1 = none := hfresh x (List.mem_cons_self _ _)
    have happ : applySets fid (x :: tl) idx size
        = applySets fid tl
            (mapInsert idx x.1 ⟨fid, x.2.2, (encCmd (.Set x.1 x.2.1)).length⟩)
            size := by
      simp only [applySets, applyRecord, hx]
    rw [happ]
    set idx1 := mapInsert idx x.1
      ⟨fid, x.2.2, (encCmd (.Set x.1 x.2.1)).length⟩ with hidx1
    have hfresh1 : ∀ y ∈ tl, mapLookup idx1 y.1 = none := by
      intro y hy
      have hne : y.1 ≠ x.1 := by
        intro he
        exact hnd.1 (he ▸ List.mem_map.mpr ⟨y, hy, rfl⟩)
      rw [hidx1, mapLookup_insert_ne _ _ _ _ hne]
      exact hfresh y (List.mem_cons_of_mem _ hy)
    obtain ⟨hsz, hmem, hframe⟩ := ih idx1 size hfresh1 hnd.2
    refine ⟨hsz, ?_, ?_⟩
    · intro y hy
      rcases List.mem_cons.mp hy with hy | hy
      · subst hy
        rw [hframe y.1 hnd.1, hidx1, mapLookup_insert_self]
      · exact hmem y hy
    · intro k hk
      simp only [List.map_cons, List.mem_cons] at hk
      push_neg at hk
      rw [hframe k hk.2, hidx1, mapLookup_insert_ne _ _ _ _ hk.1]

/-- The invariant of one index entry: the located bytes lie inside the
segment file and are exactly the serialized Set record of the key and its
value. -/
def entryReads (readers : List (Nat × Bytes)) (k v : String)
    (p : CommandPos) : Prop :=
  ∃ file, alookup readers p.fid = some file
    ∧ p.pos + p.len ≤ file.length
    ∧ sliceAt file p.pos p.len = encCmd (.Set k v)

/-- An entry that reads back has the encoded record length. -/
theorem entryReads_len (readers : List (Nat × Bytes)) (k v : String)
    (p : CommandPos) (h : entryReads readers k v p) :
    p.len = (encCmd (.Set k v)).length := by
  obtain ⟨file, _, hb, hs⟩ := h
  have := congrArg List.length hs
  rw [sliceAt_length file p.pos p.len hb] at this
  exact this

/-- Appending bytes to any file preserves every entry that reads back. -/
theorem entryReads_appendAt (readers : List (Nat × Bytes)) (fid : Nat)
    (bs : Bytes) (k v : String) (p : CommandPos)
    (h : entryReads readers k v p) :
    entryReads (appendAt readers fid bs) k v p := by
  obtain ⟨file, hl, hb, hs⟩ := h
  by_cases hf : p.fid = fid
  · subst hf
    refine ⟨file ++ bs, alookup_appendAt_self _ _ _ _ hl, ?_, ?_⟩
    · simp only [List.length_append]
      omega
    · rw [sliceAt_append_left _ _ _ _ hb]
      exact hs
  · exact ⟨file, by rw [alookup_appendAt_ne _ _ _ _ hf]; exact hl, hb, hs⟩

/-- A found key is among the keys. -/
theorem alookup_mem_keys {κ β : Type} [DecidableEq κ]
    (a : List (κ × β)) (k : κ) (v : β) (h : alookup a k = some v) :
    k ∈ a.map Prod.fst := by
  induction a with
  | nil => simp [alookup] at h
  | cons e rest ih =>
    obtain ⟨k0, v0⟩ := e
    by_cases h1 : k = k0
    · simp [h1]
    · simp only [alookup, if_neg h1] at h
      simp [ih h]

/-- kvsOfCss distributes over cons. -/
theorem kvsOfCss_cons (cs : List (String × String × Nat))
    (css : List (List (String × String × Nat))) :
    kvsOfCss (cs :: css) = cs.map (fun x => (x.1, x.2.1)) ++ kvsOfCss css :=
  rfl

/-- kvsOfCss distributes over append. -/
theorem kvsOfCss_append (a b : List (List (String × String × Nat))) :
    kvsOfCss (a ++ b) = kvsOfCss a ++ kvsOfCss b := by
  induction a with
  | nil => rfl
  | cons cs rest ih =>
    simp only [List.cons_append, kvsOfCss_cons, ih, List.append_assoc]

/-- The keys of the chain records of one segment. -/
theorem map_fst_kvs (cs : List (String × String × Nat)) :
    (cs.map (fun x => (x.1, x.2.1))).map Prod.fst = cs.map (fun x => x.1) := by
  simp [List.map_map, Function.comp]

/-- gen_index over segments that are gapless concatenations of Set records
with globally distinct keys: replay succeeds, adds nothing to the stale
counter, maps every record key to a location that reads back to its record,
and leaves all other keys alone. -/
theorem gen_index_sets :
    ∀ (segs : List (Nat × Bytes)) (css : List (List (String × String × Nat)))
      (idx : List (String × CommandPos)) (size : Nat),
      List.Forall₂ (fun (seg : Nat × Bytes) cs => SetChain 0 seg.2 cs) segs css →
      ((kvsOfCss css).map Prod.fst).Nodup →
      (∀ k, k ∈ (kvsOfCss css).map Prod.fst → mapLookup idx k = none) →
      (segs.map Prod.fst).Nodup →
      ∃ idxF,
        gen_index segs idx size = .ok (idxF, size)
        ∧ (∀ k, k ∉ (kvsOfCss css).map Prod.fst →
            mapLookup idxF k = mapLookup idx k)
        ∧ (∀ k v, (k, v) ∈ kvsOfCss css →
            ∃ p : CommandPos, mapLookup idxF k = some p
              ∧ entryReads segs k v p) := by
  intro segs css idx size hchains
  induction hchains generalizing idx size with
  | nil =>
    intro _ _ _
    exact ⟨idx, rfl, fun k _ => rfl, fun k v hm => by simp [kvsOfCss] at hm⟩
  | @cons seg cs1 segs' css' hchain1 hrest ih =>
    intro hnd hdisj hfids
    obtain ⟨fid1, content1⟩ := seg
    rw [kvsOfCss_cons, List.map_append, map_fst_kvs] at hnd hdisj
    simp only [List.map_cons, List.nodup_cons] at hfids
    have hnd1 : (cs1.map (fun x => x.1)).Nodup := hnd.of_append_left
    have hndrest : ((kvsOfCss css').map Prod.fst).Nodup := hnd.of_append_right
    have hdisj12 : ∀ k, k ∈ cs1.map (fun x => x.1) →
        k ∉ (kvsOfCss css').map Prod.fst := by
      intro k hk
      exact (List.disjoint_of_nodup_append hnd) hk
    have hfresh1 : ∀ x ∈ cs1, mapLookup idx x.1 = none := by
      intro x hx
      exact hdisj x.1 (List.mem_append.mpr (.inl (List.mem_map.mpr ⟨x, hx, rfl⟩)))
    obtain ⟨hsz1, hmem1, hframe1⟩ := applySets_spec fid1 cs1 idx size hfresh1 hnd1
    set idx1 := (applySets fid1 cs1 idx size).1 with hidx1
    have hstep : gen_index ((fid1, content1) :: segs') idx size
        = gen_index segs' idx1 size := by
      simp only [gen_index]
      rw [replaySeg_setChain fid1 hchain1 idx size]
      show gen_index segs' (applySets fid1 cs1 idx size).1
          (applySets fid1 cs1 idx size).2 = gen_index segs' idx1 size
      rw [hsz1, ← hidx1]
    have hdisj' : ∀ k, k ∈ (kvsOfCss css').map Prod.fst →
        mapLookup idx1 k = none := by
      intro k hk
      have hk1 : k ∉ cs1.map (fun x => x.1) := by
        intro hk1
        exact hdisj12 k hk1 hk
      rw [hidx1, hframe1 k hk1]
      exact hdisj k (List.mem_append.mpr (.inr hk))
    obtain ⟨idxF, hgen, hframe, hmem⟩ := ih idx1 size hndrest hdisj' hfids.2
    refine ⟨idxF, ?_, ?_, ?_⟩
    · rw [hstep]
      exact hgen
    · intro k hk
      rw [kvsOfCss_cons, List.map_append, map_fst_kvs, List.mem_append] at hk
      push_neg at hk
      rw [hframe k hk.2, hidx1, hframe1 k hk.1]
    · intro k v hkv
      rw [kvsOfCss_cons, List.mem_append] at hkv
      rcases hkv with hkv | hkv
      · obtain ⟨x, hx, hxe⟩ := List.mem_map.mp hkv
        have hk : x.1 = k := congrArg Prod.fst hxe
        have hv : x.2.1 = v := congrArg Prod.snd hxe
        have hlook : mapLookup idxF k
            = some ⟨fid1, x.2.2, (encCmd (.Set k v)).length⟩ := by
          have hnotrest : k ∉ (kvsOfCss css').map Prod.fst := by
            refine hdisj12 k ?_
            rw [← hk]
            exact List.mem_map.mpr ⟨x, hx, rfl⟩
          rw [hframe k hnotrest, hidx1]
          have := hmem1 x hx
          rw [hk, hv] at this
          exact this
        refine ⟨⟨fid1, x.2.2, (encCmd (.Set k v)).length⟩, hlook, ?_⟩
        obtain ⟨hle, hbound, hslice⟩ := setChain_slice hchain1 x hx
        refine ⟨content1, by simp [alookup], ?_, ?_⟩
        · simpa [hk, hv] using hbound
        · have h0 : x.2.2 - 0 = x.2.2 := by omega
          rw [h0] at hslice
          rw [hk, hv] at hslice
          exact hslice
      · obtain ⟨p, hlook, file, hfl, hb, hs⟩ := hmem k v hkv
        refine ⟨p, hlook, file, ?_, hb, hs⟩
        have hpfid : p.fid ∈ segs'.map Prod.fst :=
          alookup_mem_keys segs' p.fid file hfl
        have hne : p.fid ≠ fid1 := by
          intro he
          exact hfids.1 (he ▸ hpfid)
        simp only [alookup, if_neg hne]
        exact hfl

/-- kvsOfCss of a single segment chain. -/
theorem kvsOfCss_singleton (cs : List (String × String × Nat)) :
    kvsOfCss [cs] = cs.map (fun x => (x.1, x.2.1)) := by
  simp [kvsOfCss]

/-- kvsOfCss of no segments. -/
theorem kvsOfCss_nil : kvsOfCss [] = [] := rfl

/-- Appending a record to the single trailing segment. -/
theorem appendAt_singleton (fid : Nat) (cur bs : Bytes) :
    appendAt [(fid, cur)] fid bs = [(fid, cur ++ bs)] := by
  simp [appendAt]

/-- The copy loop of compaction: starting from fresh segments laid out
after all base segments (whose ids are at most M), it reads every entry,
appends the re-encoded records to the fresh segments in order, and yields
fresh segments that are chains of exactly the entry records, with distinct
ids that all exceed M. -/
theorem copyLoop_spec (base : List (Nat × Bytes)) (M : Nat)
    (hbase : ∀ f ∈ base.map Prod.fst, f ≤ M) :
    ∀ (entries : List (String × CommandPos)) (kvs : List (String × String)),
      List.Forall₂ (fun (e : String × CommandPos) (kv : String × String) =>
        e.1 = kv.1 ∧ entryReads base kv.1 kv.2 e.2) entries kvs →
      ∀ (segsInit : List (Nat × Bytes)) (cur : Bytes)
        (cssInit : List (List (String × String × Nat)))
        (curCs : List (String × String × Nat)) (fid : Nat),
      List.Forall₂ (fun (seg : Nat × Bytes) cs => SetChain 0 seg.2 cs)
        segsInit cssInit →
      SetChain 0 cur curCs →
      (∀ f ∈ segsInit.map Prod.fst, M < f ∧ f < fid) →
      M < fid →
      (segsInit.map Prod.fst).Pairwise (· < ·) →
      ∃ segsF cssF fidF logF,
        copyLoop entries (base ++ (segsInit ++ [(fid, cur)])) fid cur.length
          = .ok (base ++ segsF, fidF, logF)
        ∧ List.Forall₂ (fun (seg : Nat × Bytes) cs => SetChain 0 seg.2 cs)
            segsF cssF
        ∧ kvsOfCss cssF = kvsOfCss (cssInit ++ [curCs]) ++ kvs
        ∧ (∀ f ∈ segsF.map Prod.fst, M < f)
        ∧ (segsF.map Prod.fst).Pairwise (· < ·)
        ∧ fid ≤ fidF
        ∧ (∀ f ∈ segsF.map Prod.fst, f ≤ fidF) := by
  intro entries kvs hpair
  induction hpair with
  | nil =>
    intro segsInit cur cssInit curCs fid hchains hcur hlt hMfid hpw
    refine ⟨segsInit ++ [(fid, cur)], cssInit ++ [curCs], fid, cur.length,
      rfl, ?_, by simp, ?_, ?_, Nat.le_refl _, ?_⟩
    · exact List.rel_append hchains
        (List.Forall₂.cons hcur List.Forall₂.nil)
    · intro f hf
      simp only [List.map_append, List.map_cons, List.map_nil,
        List.mem_append] at hf
      rcases hf with hf | hf
      · exact (hlt f hf).1
      · simp at hf
        omega
    · simp only [List.map_append, List.map_cons, List.map_nil]
      refine List.pairwise_append.mpr ⟨hpw, List.pairwise_singleton _ _, ?_⟩
      intro a ha b hb
      simp at hb
      subst hb
      exact (hlt a ha).2
    · intro f hf
      simp only [List.map_append, List.map_cons, List.map_nil,
        List.mem_append] at hf
      rcases hf with hf | hf
      · exact Nat.le_of_lt (hlt f hf).2
      · simp at hf
        omega
  | @cons e kv entries' kvs' hhead htail ih =>
    intro segsInit cur cssInit curCs fid hchains hcur hlt hMfid hpw
    obtain ⟨hk, hreads⟩ := hhead
    obtain ⟨file, hfl, hbound, hslice⟩ := hreads
    have hplen : e.2.len = (encCmd (.Set kv.1 kv.2)).length :=
      entryReads_len base kv.1 kv.2 e.2 ⟨file, hfl, hbound, hslice⟩
    have hfid_base : fid ∉ base.map Prod.fst := by
      intro hmem
      have := hbase fid hmem
      omega
    have hfid_init : fid ∉ segsInit.map Prod.fst := by
      intro hmem
      exact absurd (hlt fid hmem).2 (lt_irrefl _)
    set enc := encCmd (.Set kv.1 kv.2) with hencdef
    have hlookup : alookup (base ++ (segsInit ++ [(fid, cur)])) e.2.fid
        = some file := alookup_append_left _ _ _ _ hfl
    have hread : fromReader (sliceAt file e.2.pos e.2.len)
        = .ok (.Set kv.1 kv.2) := by
      rw [hslice]
      exact fromReader_encCmd _
    have happend : appendAt (base ++ (segsInit ++ [(fid, cur)])) fid enc
        = base ++ (segsInit ++ [(fid, cur ++ enc)]) := by
      rw [appendAt_append_right _ _ _ _ hfid_base,
        appendAt_append_right _ _ _ _ hfid_init, appendAt_singleton]
    have hstep : copyLoop (e :: entries') (base ++ (segsInit ++ [(fid, cur)]))
        fid cur.length
        = (if cur.length + e.2.len > 1024 * 1024 then
            copyLoop entries'
              (hmInsert (appendAt (base ++ (segsInit ++ [(fid, cur)])) fid enc)
                (fid + 1) []) (fid + 1) 0
          else
            copyLoop entries'
              (appendAt (base ++ (segsInit ++ [(fid, cur)])) fid enc)
              fid (cur.length + e.2.len)) := by
      obtain ⟨e1, p⟩ := e
      simp only [copyLoop, hlookup, hread]
    have hcur' : SetChain 0 (cur ++ enc)
        (curCs ++ [(kv.1, kv.2, cur.length)]) := by
      refine setChain_append hcur ?_
      have h := setChain_single cur.length kv.1 kv.2
      simpa using h
    by_cases hro : cur.length + e.2.len > 1024 * 1024
    · -- rollover to a fresh segment
      rw [hstep, if_pos hro, happend]
      have hfresh : (fid + 1) ∉ (base ++ (segsInit ++ [(fid, cur ++ enc)])).map
          Prod.fst := by
        simp only [List.map_append, List.map_cons, List.map_nil,
          List.mem_append]
        push_neg
        refine ⟨?_, ?_, ?_⟩
        · intro hmem
          have := hbase _ hmem
          omega
        · intro hmem
          have := (hlt _ hmem).2
          omega
        · simp
      rw [hmInsert_fresh _ _ _ hfresh]
      have hassoc : (base ++ (segsInit ++ [(fid, cur ++ enc)])) ++ [(fid + 1, [])]
          = base ++ ((segsInit ++ [(fid, cur ++ enc)])
              ++ [(fid + 1, ([] : Bytes))]) := by
        simp [List.append_assoc]
      rw [hassoc]
      have hchains' : List.Forall₂
          (fun (seg : Nat × Bytes) cs => SetChain 0 seg.2 cs)
          (segsInit ++ [(fid, cur ++ enc)])
          (cssInit ++ [curCs ++ [(kv.1, kv.2, cur.length)]]) :=
        List.rel_append hchains (List.Forall₂.cons hcur' List.Forall₂.nil)
      have hlt' : ∀ f ∈ (segsInit ++ [(fid, cur ++ enc)]).map Prod.fst,
          M < f ∧ f < fid + 1 := by
        intro f hf
        simp only [List.map_append, List.map_cons, List.map_nil,
          List.mem_append] at hf
        rcases hf with hf | hf
        · obtain ⟨h1, h2⟩ := hlt f hf
          exact ⟨h1, by omega⟩
        · simp at hf
          omega
      have hpw' : ((segsInit ++ [(fid, cur ++ enc)]).map Prod.fst).Pairwise
          (· < ·) := by
        simp only [List.map_append, List.map_cons, List.map_nil]
        refine List.pairwise_append.mpr ⟨hpw, List.pairwise_singleton _ _, ?_⟩
        intro a ha b hb
        simp at hb
        subst hb
        exact (hlt a ha).2
      obtain ⟨segsF, cssF, fidF, logF, heq, hch, hkvs, hgt, hpwF, hle, hub⟩ :=
        ih _ ([] : Bytes) _ ([] : List (String × String × Nat)) (fid + 1)
          hchains' (SetChain.nil 0) hlt' (by omega) hpw'
      refine ⟨segsF, cssF, fidF, logF, ?_, hch, ?_, hgt, hpwF, by omega, hub⟩
      · rw [show (([] : Bytes)).length = 0 from rfl] at heq
        exact heq
      · rw [hkvs]
        simp only [kvsOfCss_append, kvsOfCss_singleton, List.map_append,
          List.map_cons, List.map_nil, List.append_nil, List.append_assoc]
        simp
    · -- continue in the same segment
      rw [hstep, if_neg hro, happend]
      have hlog : cur.length + e.2.len = (cur ++ enc).length := by
        rw [hplen, List.length_append]
      rw [hlog]
      obtain ⟨segsF, cssF, fidF, logF, heq, hch, hkvs, hgt, hpwF, hle, hub⟩ :=
        ih segsInit (cur ++ enc) cssInit (curCs ++ [(kv.1, kv.2, cur.length)])
          fid hchains hcur' hlt hMfid hpw
      refine ⟨segsF, cssF, fidF, logF, heq, hch, ?_, hgt, hpwF, hle, hub⟩
      rw [hkvs]
      simp only [kvsOfCss_append, kvsOfCss_singleton, List.map_append,
        List.map_cons, List.map_nil, List.append_nil, List.append_assoc]
      simp

/-- Well-formedness of a store as compaction needs it: every index entry
reads back as the Set record of its key, the index is a BTreeMap (sorted
keys), and no segment id exceeds the active id. -/
structure WFC (s : KvStore) : Prop where
  entries : ∀ k p, mapLookup s.index k = some p → ∃ v, entryReads s.readers k v p
  sorted : SortedKeys s.index
  fidsLe : ∀ f ∈ s.readers.map Prod.fst, f ≤ s.current_fid

/-- Full well-formedness: additionally the write pointer is the length of
the active segment file. -/
structure WF (s : KvStore) extends WFC s : Prop where
  active : ∃ file, alookup s.readers s.current_fid = some file
    ∧ s.current_pointer = file.length

/-- A Forall₂ pairing yields a witness on the right for every left member. -/
theorem forall₂_mem_left {α β : Type} {R : α → β → Prop} :
    ∀ {l1 : List α} {l2 : List β}, List.Forall₂ R l1 l2 →
      ∀ a ∈ l1, ∃ b ∈ l2, R a b := by
  intro l1 l2 h
  induction h with
  | nil => intro a ha; simp at ha
  | cons hr _ ih =>
    intro a ha
    rcases List.mem_cons.mp ha with ha | ha
    · subst ha
      exact ⟨_, List.mem_cons_self _ _, hr⟩
    · obtain ⟨b, hb, hrb⟩ := ih a ha
      exact ⟨b, List.mem_cons_of_mem _ hb, hrb⟩

/-- A Forall₂ pairing yields a witness on the left for every right member. -/
theorem forall₂_mem_right {α β : Type} {R : α → β → Prop} :
    ∀ {l1 : List α} {l2 : List β}, List.Forall₂ R l1 l2 →
      ∀ b ∈ l2, ∃ a ∈ l1, R a b := by
  intro l1 l2 h
  induction h with
  | nil => intro b hb; simp at hb
  | cons hr _ ih =>
    intro b hb
    rcases List.mem_cons.mp hb with hb | hb
    · subst hb
      exact ⟨_, List.mem_cons_self _ _, hr⟩
    · obtain ⟨a, ha, hra⟩ := ih b hb
      exact ⟨a, List.mem_cons_of_mem _ ha, hra⟩

/-- The entry-to-record pairing used by the compaction proof preserves the
key sequence. -/
theorem pair_keys (base : List (Nat × Bytes)) :
    ∀ {entries : List (String × CommandPos)} {kvs : List (String × String)},
      List.Forall₂ (fun (e : String × CommandPos) (kv : String × String) =>
        e.1 = kv.1 ∧ entryReads base kv.1 kv.2 e.2) entries kvs →
      entries.map Prod.fst = kvs.map Prod.fst := by
  intro entries kvs h
  induction h with
  | nil => rfl
  | cons hr _ ih =>
    simp only [List.map_cons, ih, List.cons.injEq]
    exact ⟨hr.1, trivial⟩

/-- Every index entry has a paired value read from the base files. -/
theorem exists_kvs (base : List (Nat × Bytes)) :
    ∀ (entries : List (String × CommandPos)),
      (∀ e ∈ entries, ∃ v, entryReads base e.1 v e.2) →
      ∃ kvs, List.Forall₂ (fun (e : String × CommandPos) (kv : String × String) =>
          e.1 = kv.1 ∧ entryReads base kv.1 kv.2 e.2) entries kvs := by
  intro entries
  induction entries with
  | nil => intro _; exact ⟨[], List.Forall₂.nil⟩
  | cons e rest ih =>
    intro h
    obtain ⟨v, hv⟩ := h e (List.mem_cons_self _ _)
    obtain ⟨kvs, hkvs⟩ := ih (fun x hx => h x (List.mem_cons_of_mem _ hx))
    exact ⟨(e.1, v) :: kvs, List.Forall₂.cons ⟨rfl, hv⟩ hkvs⟩

/-- A key present in the key list of a map looks up to something. -/
theorem mapLookup_isSome_of_mem_keys {β : Type} (m : List (String × β))
    (k : String) (h : k ∈ m.map Prod.fst) : ∃ v, mapLookup m k = some v := by
  induction m with
  | nil => simp at h
  | cons e rest ih =>
    obtain ⟨k0, v0⟩ := e
    by_cases h1 : k = k0
    · exact ⟨v0, by simp [mapLookup, h1]⟩
    · simp only [List.map_cons, List.mem_cons] at h
      rcases h with h | h
      · exact absurd h h1
      · obtain ⟨v, hv⟩ := ih h
        exact ⟨v, by simp [mapLookup, h1, hv]⟩

/-- get on an entry that reads back returns the record value. -/
theorem get_entryReads (s : KvStore) (k v : String) (p : CommandPos)
    (hl : mapLookup s.index k = some p)
    (hr : entryReads s.readers k v p) :
    (KvStore.get s k).1 = .ok (some v) := by
  obtain ⟨file, hfl, _, hs⟩ := hr
  simp [KvStore.get, hl, hfl, hs, fromReader_encCmd]

/-- KvStore::compact on a well-formed store: it succeeds, every surviving
segment id exceeds the old maximum M (so every segment with id at most M
is gone), the rebuilt stale counter is zero, the rebuilt index is exactly
the replay of the surviving segments reporting zero stale bytes, the new
active id is fresh, index entries stay within the surviving ids, and every
key reads the same value as before. -/
theorem compact_spec (s : KvStore) (hwf : WFC s) :
    ∃ s2, KvStore.compact s = .ok s2
      ∧ (∀ f ∈ s2.readers.map Prod.fst, s.current_fid < f)
      ∧ s2.compaction_size = 0
      ∧ gen_index s2.readers [] 0 = .ok (s2.index, 0)
      ∧ s.current_fid + 1 ≤ s2.current_fid
      ∧ (∀ f ∈ s2.readers.map Prod.fst, f ≤ s2.current_fid)
      ∧ (∀ k p, mapLookup s2.index k = some p → p.fid ≤ s2.current_fid)
      ∧ (∀ k, (KvStore.get s2 k).1 = (KvStore.get s k).1) := by
  have hfree : (s.current_fid + 1) ∉ s.readers.map Prod.fst := by
    intro hm
    have := hwf.fidsLe _ hm
    omega
  have hnd : (s.index.map Prod.fst).Nodup :=
    nodup_keys_of_sortedKeys _ hwf.sorted
  have hentries_mem : ∀ e ∈ s.index, ∃ v, entryReads s.readers e.1 v e.2 := by
    intro e he
    refine hwf.entries e.1 e.2 ?_
    have : (e.1, e.2) ∈ s.index := by
      rw [show (e.1, e.2) = e from rfl]
      exact he
    exact mapLookup_eq_some_of_mem _ _ _ hnd this
  obtain ⟨kvs, hpair⟩ := exists_kvs s.readers s.index hentries_mem
  obtain ⟨segsF, cssF, fidF, logF, heq, hch, hkvs, hgt, hpwF, hle, hub⟩ :=
    copyLoop_spec s.readers s.current_fid hwf.fidsLe s.index kvs hpair
      [] [] [] [] (s.current_fid + 1) List.Forall₂.nil (SetChain.nil 0)
      (by simp) (by omega) (by simp)
  simp only [List.nil_append, List.length_nil] at heq
  have hkvsF : kvsOfCss cssF = kvs := by
    rw [hkvs]
    simp [kvsOfCss_append, kvsOfCss_singleton, kvsOfCss_nil]
  have hkeysF : (kvsOfCss cssF).map Prod.fst = s.index.map Prod.fst := by
    rw [hkvsF, ← pair_keys s.readers hpair]
  have hndF : ((kvsOfCss cssF).map Prod.fst).Nodup := by
    rw [hkeysF]
    exact hnd
  have hfidsF : (segsF.map Prod.fst).Nodup := by
    exact hpwF.imp (fun h => Nat.ne_of_lt h)
  obtain ⟨idxF, hgen, hframe, hmem⟩ :=
    gen_index_sets segsF cssF [] 0 hch hndF (fun k _ => rfl) hfidsF
  have hfilter : (s.readers ++ segsF).filter
      (fun e => decide (s.current_fid < e.1)) = segsF := by
    rw [List.filter_append]
    have h1 : s.readers.filter (fun e => decide (s.current_fid < e.1)) = [] := by
      rw [List.filter_eq_nil_iff]
      intro e he
      have := hwf.fidsLe e.1 (List.mem_map.mpr ⟨e, he, rfl⟩)
      simp
      omega
    have h2 : segsF.filter (fun e => decide (s.current_fid < e.1)) = segsF := by
      rw [List.filter_eq_self]
      intro e he
      have := hgt e.1 (List.mem_map.mpr ⟨e, he, rfl⟩)
      simp
      omega
    rw [h1, h2, List.nil_append]
  have hcompact : KvStore.compact s = .ok ⟨segsF, idxF, logF, 0, fidF⟩ := by
    have h1 : KvStore.compact s
        = match copyLoop s.index (hmInsert s.readers (s.current_fid + 1) [])
            (s.current_fid + 1) 0 with
          | .error e => .error e
          | .ok (r1, f1, l1) =>
            match gen_index (r1.filter (fun e => decide (s.current_fid < e.1)))
                [] 0 with
            | .error e => .error e
            | .ok r => .ok ⟨r1.filter (fun e => decide (s.current_fid < e.1)),
                r.1, l1, r.2, f1⟩ := rfl
    rw [h1, hmInsert_fresh _ _ _ hfree, heq]
    show (match gen_index ((s.readers ++ segsF).filter
          (fun e => decide (s.current_fid < e.1))) [] 0 with
      | .error e => (.error e : Except Err KvStore)
      | .ok r => .ok ⟨(s.readers ++ segsF).filter
          (fun e => decide (s.current_fid < e.1)), r.1, logF, r.2, fidF⟩)
      = .ok ⟨segsF, idxF, logF, 0, fidF⟩
    rw [hfilter, hgen]
  refine ⟨⟨segsF, idxF, logF, 0, fidF⟩, hcompact, hgt, rfl, hgen, hle, hub,
    ?_, ?_⟩
  · intro k p hl
    by_cases hkmem : k ∈ (kvsOfCss cssF).map Prod.fst
    · obtain ⟨kvp, hkvp, hfst⟩ := List.mem_map.mp hkmem
      obtain ⟨p2, hl2, hent2⟩ := hmem kvp.1 kvp.2
        (by rw [show (kvp.1, kvp.2) = kvp from rfl]; exact hkvp)
      rw [hfst] at hl2
      have hpe : p = p2 := by
        rw [hl] at hl2
        exact Option.some.inj hl2
      subst hpe
      obtain ⟨file, hfl, _, _⟩ := hent2
      exact hub p.fid (alookup_mem_keys _ _ _ hfl)
    · rw [hframe k hkmem] at hl
      exact absurd hl (by simp [mapLookup])
  · intro k
    cases hl : mapLookup s.index k with
    | none =>
      have hknot : k ∉ (kvsOfCss cssF).map Prod.fst := by
        rw [hkeysF]
        intro hk
        obtain ⟨v, hv⟩ := mapLookup_isSome_of_mem_keys _ _ hk
        rw [hl] at hv
        exact Option.noConfusion hv
      have hl2 : mapLookup idxF k = none := by
        rw [hframe k hknot]
        rfl
      show (KvStore.get ⟨segsF, idxF, logF, 0, fidF⟩ k).1 = (KvStore.get s k).1
      simp [KvStore.get, hl, hl2]
    | some p =>
      have hmem_idx : (k, p) ∈ s.index := mem_of_mapLookup_eq_some _ _ _ hl
      obtain ⟨kv, hkv, hrel⟩ := forall₂_mem_left hpair (k, p) hmem_idx
      have hkeq : k = kv.1 := hrel.1
      have hent : entryReads s.readers kv.1 kv.2 p := hrel.2
      have hgs : (KvStore.get s k).1 = .ok (some kv.2) := by
        refine get_entryReads s k kv.2 p hl ?_
        rw [hkeq]
        exact hent
      have hkvmem : (kv.1, kv.2) ∈ kvsOfCss cssF := by
        rw [hkvsF, show (kv.1, kv.2) = kv from rfl]
        exact hkv
      obtain ⟨p2, hl2, hent2⟩ := hmem kv.1 kv.2 hkvmem
      have hgs2 : (KvStore.get ⟨segsF, idxF, logF, 0, fidF⟩ k).1
          = .ok (some kv.2) := by
        refine get_entryReads ⟨segsF, idxF, logF, 0, fidF⟩ k kv.2 p2 ?_ ?_
        · show mapLookup idxF k = some p2
          rw [hkeq]
          exact hl2
        · show entryReads segsF k kv.2 p2
          rw [hkeq]
          exact hent2
      rw [hgs, hgs2]

/-- Keys of a HashMap insert come from the inserted key and the old keys. -/
theorem mem_keys_hmInsert {β : Type} (rs : List (Nat × β)) (nf f : Nat)
    (v : β) (h : f ∈ (hmInsert rs nf v).map Prod.fst) :
    f = nf ∨ f ∈ rs.map Prod.fst := by
  induction rs with
  | nil =>
    rw [show hmInsert ([] : List (Nat × β)) nf v = [(nf, v)] from rfl] at h
    simp only [List.map_cons, List.map_nil] at h
    rcases List.mem_cons.mp h with h2 | h2
    · exact .inl h2
    · simp at h2
  | cons e rest ih =>
    obtain ⟨f0, c0⟩ := e
    by_cases h1 : nf = f0
    · subst h1
      rw [show hmInsert ((nf, c0) :: rest) nf v = (nf, v) :: rest from by
        simp [hmInsert]] at h
      simp only [List.map_cons] at h
      rcases List.mem_cons.mp h with h2 | h2
      · exact .inl h2
      · refine .inr ?_
        simp only [List.map_cons]
        exact List.mem_cons.mpr (.inr h2)
    · rw [show hmInsert ((f0, c0) :: rest) nf v
          = (f0, c0) :: hmInsert rest nf v from by simp [hmInsert, h1]] at h
      simp only [List.map_cons] at h
      rcases List.mem_cons.mp h with h2 | h2
      · refine .inr ?_
        simp only [List.map_cons]
        exact List.mem_cons.mpr (.inl h2)
      · rcases ih h2 with h3 | h3
        · exact .inl h3
        · refine .inr ?_
          simp only [List.map_cons]
          exact List.mem_cons.mpr (.inr h3)

/-- The first component of get depends only on the index and on the files
that index entries point to. -/
theorem get_fst_congr (a b : KvStore) (hidx : a.index = b.index)
    (hrd : ∀ k p, mapLookup b.index k = some p →
        alookup a.readers p.fid = alookup b.readers p.fid) :
    ∀ k, (KvStore.get a k).1 = (KvStore.get b k).1 := by
  intro k
  unfold KvStore.get
  rw [hidx]
  split
  · rfl
  · next p heq =>
    rw [hrd k p heq]
    split
    · rfl
    · split <;> rfl

/-- The tail of set (pointer update and rotation check) does not change
what get returns, as long as index entries point at existing segments. -/
theorem get_finishSet (s2 : KvStore) (no : Nat)
    (hfids : ∀ k p, mapLookup s2.index k = some p → p.fid ≤ s2.current_fid) :
    ∀ k, (KvStore.get (finishSet s2 no) k).1 = (KvStore.get s2 k).1 := by
  intro k
  unfold finishSet
  by_cases hro : no > 1024 * 1024
  · rw [if_pos hro]
    refine get_fst_congr _ _ ?_ ?_ k
    · rfl
    · intro k2 p hl
      have hne : p.fid ≠ s2.current_fid + 1 := by
        have := hfids k2 p hl
        omega
      exact alookup_hmInsert_ne _ _ _ _ hne
  · rw [if_neg hro]
    refine get_fst_congr _ _ ?_ ?_ k
    · rfl
    · intro k2 p hl
      rfl

/-- The first phase of set on a well-formed store: the state it hands to
the compaction check is well-formed, the new key reads back as the value
just written, and every other key reads as before. -/
theorem midSet_props (s : KvStore) (key value : String) (hwf : WF s) :
    WFC (midSet s key value).1
    ∧ (KvStore.get (midSet s key value).1 key).1 = .ok (some value)
    ∧ (∀ k, k ≠ key →
        (KvStore.get (midSet s key value).1 k).1 = (KvStore.get s k).1) := by
  obtain ⟨file, hal, hptr⟩ := hwf.active
  set enc := encCmd (.Set key value) with hencdef
  have hlen : ((alookup (appendAt s.readers s.current_fid enc)
      s.current_fid).getD []).length - s.current_pointer = enc.length := by
    rw [alookup_appendAt_self _ _ _ _ hal]
    simp only [Option.getD_some, List.length_append]
    rw [hptr]
    omega
  have hidx : (midSet s key value).1.index
      = mapInsert s.index key
          ⟨s.current_fid, s.current_pointer, enc.length⟩ := by
    show mapInsert s.index key
        ⟨s.current_fid, s.current_pointer,
          ((alookup (appendAt s.readers s.current_fid enc)
            s.current_fid).getD []).length - s.current_pointer⟩
      = mapInsert s.index key ⟨s.current_fid, s.current_pointer, enc.length⟩
    rw [hlen]
  have hr1 : (midSet s key value).1.readers
      = appendAt s.readers s.current_fid enc := rfl
  have hfid1 : (midSet s key value).1.current_fid = s.current_fid := rfl
  have hkeyreads : entryReads (midSet s key value).1.readers key value
      ⟨s.current_fid, s.current_pointer, enc.length⟩ := by
    rw [hr1]
    refine ⟨file ++ enc, alookup_appendAt_self _ _ _ _ hal, ?_, ?_⟩
    · simp only [List.length_append]
      rw [hptr]
    · rw [hptr]
      exact sliceAt_append_exact file enc
  have hwfc : WFC (midSet s key value).1 := by
    refine ⟨?_, ?_, ?_⟩
    · intro k p hl
      rw [hidx] at hl
      by_cases hk : k = key
      · subst hk
        rw [mapLookup_insert_self] at hl
        have hp := Option.some.inj hl
        refine ⟨value, ?_⟩
        rw [← hp]
        exact hkeyreads
      · rw [mapLookup_insert_ne _ _ _ _ hk] at hl
        obtain ⟨v, hv⟩ := hwf.entries k p hl
        exact ⟨v, hr1 ▸ entryReads_appendAt _ _ _ _ _ _ hv⟩
    · rw [hidx]
      exact sortedKeys_mapInsert _ _ _ hwf.sorted
    · rw [hr1, hfid1, appendAt_map_fst]
      exact hwf.fidsLe
  refine ⟨hwfc, ?_, ?_⟩
  · refine get_entryReads _ key value
      ⟨s.current_fid, s.current_pointer, enc.length⟩ ?_ hkeyreads
    rw [hidx]
    exact mapLookup_insert_self _ _ _
  · intro k hk
    cases hl : mapLookup s.index k with
    | none =>
      have hl1 : mapLookup (midSet s key value).1.index k = none := by
        rw [hidx, mapLookup_insert_ne _ _ _ _ hk]
        exact hl
      show (KvStore.get (midSet s key value).1 k).1 = (KvStore.get s k).1
      unfold KvStore.get
      rw [hl, hl1]
    | some p =>
      obtain ⟨v, hv⟩ := hwf.entries k p hl
      have hg1 : (KvStore.get (midSet s key value).1 k).1 = .ok (some v) := by
        refine get_entryReads _ k v p ?_ ?_
        · rw [hidx, mapLookup_insert_ne _ _ _ _ hk]
          exact hl
        · exact hr1 ▸ entryReads_appendAt _ _ _ _ _ _ hv
      have hg2 : (KvStore.get s k).1 = .ok (some v) :=
        get_entryReads s k v p hl hv
      rw [hg1, hg2]

/-- A value of 2 to the 20 characters a: long enough that superseding its
record pushes the stale counter past the compaction threshold. -/
def bigVal : String := ⟨List.replicate 1048576 'a'⟩

/-- State after set c bigVal on trace3: the huge record is appended to
segment 0 and indexed correctly at offset 84, and since the write pointer
crossed 1 MiB the set rotated to a fresh empty active segment 1.  The
corrupt entry for b of trace3 is still live. -/
def trace4 : KvStore :=
  ⟨[(0, encCmd (.Set "a" "1") ++ encCmd (.Remove "a") ++ encCmd (.Set "b" "2")
        ++ encCmd (.Set "c" bigVal)), (1, [])],
   [("b", ⟨0, 31, 53⟩), ("c", ⟨0, 84, 1048606⟩)], 0, 31, 1⟩

/-- Escaping a run of the letter a changes nothing: the body is the run
followed by the closing quote. -/
theorem escBody_replicate (n : Nat) :
    escBody (List.replicate n 'a') = List.replicate n 'a' ++ ['"'] := by
  induction n with
  | zero => rfl
  | succ n ih =>
    rw [List.replicate_succ]
    show escseq 'a' ++ escBody (List.replicate n 'a')
        = ('a' :: List.replicate n 'a') ++ ['"']
    rw [ih, show escseq 'a' = ['a'] from by decide]
    rfl

/-- The JSON encoding of bigVal is the quoted run. -/
theorem encStr_bigVal :
    encStr bigVal = '"' :: (List.replicate 1048576 'a' ++ ['"']) := by
  show '"' :: escBody (List.replicate 1048576 'a') = _
  rw [escBody_replicate]

/-- Byte length of the huge Set record. -/
theorem encCmd_bigVal_length : (encCmd (.Set "c" bigVal)).length = 1048606 := by
  show (setPre ++ encStr "c" ++ setMid ++ encStr bigVal ++ objSuf).length
      = 1048606
  rw [encStr_bigVal, List.length_append, List.length_append,
      List.length_append, List.length_append, List.length_cons,
      List.length_append, List.length_replicate]
  rfl

/-- First phase of set c on trace3, for an abstract encoding of the new
record: the record is appended to segment 0 and indexed at the correct
offset 84 with its length; the stale counter stays at 31 because c is
fresh. -/
theorem midSet_trace3_abs (v : String) (e : Bytes)
    (he : encCmd (.Set "c" v) = e) :
    midSet trace3 "c" v
      = (⟨[(0, encCmd (.Set "a" "1") ++ encCmd (.Remove "a")
             ++ encCmd (.Set "b" "2") ++ e)],
          [("b", ⟨0, 31, 53⟩), ("c", ⟨0, 84, e.length⟩)], 84, 31, 0⟩,
         84 + e.length) := by
  simp only [midSet, trace3, he]
  norm_num +decide [appendAt, alookup, mapLookup, mapInsert, strLt, bytesLt,
    List.length_append,
    show (encCmd (.Set "a" "1")).length = 31 from rfl,
    show (encCmd (.Remove "a")).length = 22 from rfl,
    show (encCmd (.Set "b" "2")).length = 31 from rfl]
  omega

/-- Appending the huge record to trace3: the set succeeds without
compacting (the stale counter is 31) and rotates to segment 1 because the
pointer crossed 1 MiB. -/
theorem set_trace3_big : KvStore.set trace3 "c" bigVal = .ok trace4 := by
  have hmid := midSet_trace3_abs bigVal (encCmd (.Set "c" bigVal)) rfl
  rw [encCmd_bigVal_length] at hmid
  unfold KvStore.set
  rw [hmid]
  rfl

/-- C6 counterexample: the claim says that whenever the stale counter
exceeds 1 MiB during a set, compaction runs synchronously, copies the live
records into fresh segments and preserves every live key and value.  On the
reachable store obtained by open, set a 1, remove a, set b 2 (whose index
entry for b is corrupt because remove leaves the write pointer stale), a
set of c to a 1 MiB value followed by an overwrite of c drives the stale
counter past the threshold; the triggered compaction reads the corrupt
entry for b and fails with a codec error, so the set returns the error and
no state: compaction does not preserve the store state on reachable
stores. -/
theorem c6_counterexample :
    KvStore.openStore [] = .ok trace0
    ∧ KvStore.set trace0 "a" "1" = .ok trace1
    ∧ KvStore.remove trace1 "a" = (.ok (), trace2)
    ∧ KvStore.set trace2 "b" "2" = .ok trace3
    ∧ KvStore.set trace3 "c" bigVal = .ok trace4
    ∧ (midSet trace4 "c" "x").1.compaction_size > COMPACTION_THRESHOLD
    ∧ KvStore.set trace4 "c" "x" = .error .codec :=
  ⟨rfl, rfl, rfl, rfl, set_trace3_big, by decide, rfl⟩

/-- C6 amended: on a well-formed store (every index entry reads back as a
valid Set record for its key, the index keys are strictly ascending, every
segment id is at most the active id, and the write pointer sits at the end
of the active segment), when the stale counter exceeds 1 MiB during a set,
the set runs compaction synchronously and returns its result (first
equation and the set equation); compaction leaves only fresh segments, all
with ids strictly greater than the old maximum (so every segment with id at
most the old maximum is deleted), and this still holds after the tail of
set; the rebuilt stale counter is zero and equals what a full replay of the
surviving segments reports together with the rebuilt index; and afterwards
the key just written reads back its value while every other key reads
exactly what it read before the set.  The well-formedness restriction is
what the preceding counterexample shows the original claim to need: stores
the engine itself corrupts through remove escape it. -/
theorem c6_compaction_preserves_state (s : KvStore) (key value : String)
    (hwf : WF s)
    (htrig : (midSet s key value).1.compaction_size > COMPACTION_THRESHOLD) :
    ∃ s2, KvStore.compact (midSet s key value).1 = .ok s2
      ∧ KvStore.set s key value = .ok (finishSet s2 (midSet s key value).2)
      ∧ (∀ f ∈ s2.readers.map Prod.fst, s.current_fid < f)
      ∧ (∀ f ∈ (finishSet s2 (midSet s key value).2).readers.map Prod.fst,
          s.current_fid < f)
      ∧ s2.compaction_size = 0
      ∧ gen_index s2.readers [] 0 = .ok (s2.index, 0)
      ∧ (KvStore.get (finishSet s2 (midSet s key value).2) key).1
          = .ok (some value)
      ∧ (∀ k, k ≠ key →
          (KvStore.get (finishSet s2 (midSet s key value).2) k).1
            = (KvStore.get s k).1) := by
  obtain ⟨hwfc1, hgkey, hgother⟩ := midSet_props s key value hwf
  obtain ⟨s2, hcomp, hgt, hsz, hgen, hfle, hfub, hefid, hgetpres⟩ :=
    compact_spec _ hwfc1
  have hfid1 : (midSet s key value).1.current_fid = s.current_fid := rfl
  rw [hfid1] at hgt hfle
  have hset : KvStore.set s key value
      = .ok (finishSet s2 (midSet s key value).2) := by
    have h1 : KvStore.set s key value
        = match (if (midSet s key value).1.compaction_size > COMPACTION_THRESHOLD
            then KvStore.compact (midSet s key value).1
            else .ok (midSet s key value).1) with
          | .error e => .error e
          | .ok t => .ok (finishSet t (midSet s key value).2) := rfl
    rw [h1, if_pos htrig, hcomp]
  have hfin : ∀ k, (KvStore.get (finishSet s2 (midSet s key value).2) k).1
      = (KvStore.get s2 k).1 :=
    get_finishSet s2 _ hefid
  refine ⟨s2, hcomp, hset, hgt, ?_, hsz, hgen, ?_, ?_⟩
  · intro f hf
    have hf' : f ∈ (finishSet s2 (midSet s key value).2).readers.map
        Prod.fst := hf
    unfold finishSet at hf'
    by_cases hro : (midSet s key value).2 > 1024 * 1024
    · rw [if_pos hro] at hf'
      have hf2 : f ∈ (hmInsert s2.readers (s2.current_fid + 1)
          ([] : Bytes)).map Prod.fst := hf'
      rcases mem_keys_hmInsert _ _ _ _ hf2 with he | he
      · omega
      · exact hgt f he
    · rw [if_neg hro] at hf'
      exact hgt f hf'
  · rw [hfin key, hgetpres key]
    exact hgkey
  · intro k hk
    rw [hfin k, hgetpres k]
    exact hgother k hk

/-- A concrete well-formed store with a stale counter already above the
compaction threshold: one live key a with value x in segment 0. -/
def c6state : KvStore :=
  ⟨[(0, encCmd (.Set "a" "x"))], [("a", ⟨0, 0, 31⟩)], 31, 1048577, 0⟩

/-- C6 witness: the hypotheses hold on the concrete store and the theorem
applies to it; additionally the set evaluates concretely, compacting into
the single fresh segment 1 holding both live records with a zero stale
counter. -/
theorem c6_compaction_witness :
    WF c6state
    ∧ (midSet c6state "b" "y").1.compaction_size > COMPACTION_THRESHOLD
    ∧ KvStore.set c6state "b" "y"
        = .ok ⟨[(1, encCmd (.Set "a" "x") ++ encCmd (.Set "b" "y"))],
               [("a", ⟨1, 0, 31⟩), ("b", ⟨1, 31, 31⟩)], 62, 0, 1⟩
    ∧ (∃ s2, KvStore.compact (midSet c6state "b" "y").1 = .ok s2
        ∧ KvStore.set c6state "b" "y"
            = .ok (finishSet s2 (midSet c6state "b" "y").2)
        ∧ (∀ f ∈ s2.readers.map Prod.fst, c6state.current_fid < f)
        ∧ (∀ f ∈ (finishSet s2 (midSet c6state "b" "y").2).readers.map
            Prod.fst, c6state.current_fid < f)
        ∧ s2.compaction_size = 0
        ∧ gen_index s2.readers [] 0 = .ok (s2.index, 0)
        ∧ (KvStore.get (finishSet s2 (midSet c6state "b" "y").2) "b").1
            = .ok (some "y")
        ∧ (∀ k, k ≠ "b" →
            (KvStore.get (finishSet s2 (midSet c6state "b" "y").2) k).1
              = (KvStore.get c6state k).1)) := by
  have hwf : WF c6state := by
    refine ⟨⟨?_, ?_, ?_⟩, ?_⟩
    · intro k p h
      by_cases hk : k = "a"
      · subst hk
        obtain rfl : p = ⟨0, 0, 31⟩ := (Option.some.inj h).symm
        exact ⟨"x", encCmd (.Set "a" "x"), rfl, by decide, rfl⟩
      · simp [c6state, mapLookup, hk] at h
    · simp [SortedKeys, c6state]
    · intro f hf
      simp [c6state] at hf
      omega
    · exact ⟨encCmd (.Set "a" "x"), rfl, rfl⟩
  have htrig : (midSet c6state "b" "y").1.compaction_size
      > COMPACTION_THRESHOLD := by decide
  exact ⟨hwf, htrig, rfl,
    c6_compaction_preserves_state c6state "b" "y" hwf htrig⟩
